import Mathlib

/-!
The release-to-catalog resolution of `rke-update-checker`.

A shallow embedding of the decision logic of `start-codex/rke-update-checker`
(`internal/version`, `internal/chart`, `internal/helm`, `internal/rancher`) and
theorems about it.

Go strings are modelled by Lean `String`s and processed through their character
lists; every separator and pattern the code uses (`v`, `V`, `.`, `/`, the digits,
`github.com`) is ASCII, so splitting, prefix and substring tests agree on bytes and
on characters.
-/

namespace RkeUpdateChecker

/-! ## Go `strings` helpers -/

namespace strings

/-- Go `strings.HasPrefix(s, prefix)`. -/
def HasPrefix (s pre : String) : Bool :=
  pre.data.isPrefixOf s.data

/-- Go `strings.TrimPrefix(s, prefix)`: `s` without the leading `prefix`, or `s`
itself when it does not start with `prefix`. -/
def TrimPrefix (s pre : String) : String :=
  if HasPrefix s pre then ⟨s.data.drop pre.data.length⟩ else s

/-- Substring test on character lists: `sub` occurs in `s` at some position. -/
def containsChars (sub : List Char) : List Char → Bool
  | [] => sub.isEmpty
  | c :: cs => sub.isPrefixOf (c :: cs) || containsChars sub cs

/-- Go `strings.Contains(s, substr)`. -/
def Contains (s sub : String) : Bool :=
  containsChars sub.data s.data

/-- Splitting a character list at every occurrence of `sep`; `cur` is the segment
being read, in reverse. -/
def splitChars (sep : Char) : List Char → List Char → List String
  | [], cur => [⟨cur.reverse⟩]
  | c :: cs, cur =>
    if c = sep then ⟨cur.reverse⟩ :: splitChars sep cs []
    else splitChars sep cs (c :: cur)

/-- Go `strings.Split(s, "/")`: the segments between the slashes, one more than
there are slashes. -/
def SplitSlash (s : String) : List String :=
  splitChars '/' s.data []

end strings

/-! ## `internal/version` -/

namespace version

/-- Largest value of Go's `int` on a 64-bit target. -/
def maxInt : Nat := 2 ^ 63 - 1

/-- The regular-expression class `\d` of Go's `regexp`: the ASCII digits. -/
def isDigit (c : Char) : Bool :=
  '0' ≤ c && c ≤ '9'

/-- Value of a string of decimal digits, read left to right. -/
def digitsValue (ds : List Char) : Nat :=
  ds.foldl (fun acc c => acc * 10 + (c.toNat - '0'.toNat)) 0

/-- Go `strconv.Atoi` on a non-empty string of ASCII digits, the only strings that
reach it from `parseVersion`: the value, or `none` for the range error reported when
the value does not fit in `int`. -/
def Atoi (ds : List Char) : Option Nat :=
  if digitsValue ds ≤ maxInt then some (digitsValue ds) else none

/-- One optional group `(?:\.(\d+))?` tried at the head of `s`: the captured digits
(empty when the group does not take part) and the input that remains. -/
def optGroup (s : List Char) : List Char × List Char :=
  match s with
  | '.' :: t =>
    if (t.takeWhile isDigit).isEmpty then ([], s)
    else (t.takeWhile isDigit, t.dropWhile isDigit)
  | _ => ([], s)

/-- The submatches 1 to 3 of the pattern `^(\d+)(?:\.(\d+))?(?:\.(\d+))?` on `s`, as
`regexp.FindStringSubmatch` reports them, or `none` when the pattern does not match.
Every repetition is greedy and everything after the first group is optional, so the
leftmost-first match is found without backtracking. -/
def FindStringSubmatch (s : List Char) : Option (List Char × List Char × List Char) :=
  if (s.takeWhile isDigit).isEmpty then none
  else
    let r1 := s.dropWhile isDigit
    let g2 := optGroup r1
    let g3 := optGroup g2.2
    some (s.takeWhile isDigit, g2.1, g3.1)

/-- The body of the loop of `parseVersion` for one submatch: `result[i-1]` stays `0`
when the submatch is empty or `Atoi` reports an error. -/
def component (m : List Char) : Nat :=
  if m.isEmpty then 0
  else
    match Atoi m with
    | some num => num
    | none => 0

/-- Go `parseVersion`: the slice `[major, minor, patch]` as a triple. -/
def parseVersion (version : String) : Nat × Nat × Nat :=
  let cleanVersion := strings.TrimPrefix (strings.TrimPrefix version "v") "V"
  match FindStringSubmatch cleanVersion.data with
  | none => (0, 0, 0)
  | some (m1, m2, m3) => (component m1, component m2, component m3)

/-- The comparison loop of `IsNewer` over the pairs `(newer[i], current[i])`. -/
def newerLoop : List (Nat × Nat) → Bool
  | [] => false
  | (n, c) :: rest =>
    if n > c then true
    else if n < c then false
    else newerLoop rest

/-- Go `IsNewer(currentVersion, newVersion)`. -/
def IsNewer (currentVersion newVersion : String) : Bool :=
  if newVersion = "unknown" ∨ newVersion = "internal" ∨ newVersion = "managed" then false
  else
    let current := parseVersion currentVersion
    let newer := parseVersion newVersion
    newerLoop [(newer.1, current.1), (newer.2.1, current.2.1), (newer.2.2, current.2.2)]

end version

/-! ## `internal/chart` -/

namespace chart

/-- A chart offered by a repository of the cluster (`chart.Chart`). -/
structure Chart where
  Version : String
  Repo : String
  Chart : String
  Name : String
  Home : String
  Sources : List String
  deriving DecidableEq, Repr

/-- Go `sourcesMatch(a, b)`: both slices are non-empty and some element of `b` is in
the set built from `a`. -/
def sourcesMatch (a b : List String) : Bool :=
  if a.length = 0 ∨ b.length = 0 then false
  else b.any (fun s => a.contains s)

/-- First loop of `FindChartByName`: the first chart matching name and sources. -/
def findByNameAndSources (name : String) (sources : List String) : List Chart → Option Chart
  | [] => none
  | chart :: rest =>
    if (chart.Chart = name ∨ chart.Name = name) ∧ sourcesMatch chart.Sources sources = true
    then some chart
    else findByNameAndSources name sources rest

/-- Second loop of `FindChartByName`: the first chart matching the name. -/
def findByNameOnly (name : String) : List Chart → Option Chart
  | [] => none
  | chart :: rest =>
    if chart.Chart = name ∨ chart.Name = name then some chart
    else findByNameOnly name rest

/-- Go `FindChartByName(charts, name, sources)`; `none` stands for `(Chart{}, false)`. -/
def FindChartByName (charts : List Chart) (name : String) (sources : List String) :
    Option Chart :=
  match findByNameAndSources name sources charts with
  | some chart => some chart
  | none => findByNameOnly name charts

/-- Go `FindChartBySource(charts, sources)`; `none` stands for `(Chart{}, false)`. -/
def FindChartBySource : List Chart → List String → Option Chart
  | [], _ => none
  | chart :: rest, sources =>
    if sourcesMatch chart.Sources sources then some chart
    else FindChartBySource rest sources

/-- Go `FindLatestVersionBySource(installedSources, chartName, availableCharts)`. -/
def FindLatestVersionBySource (installedSources : List String) (chartName : String)
    (availableCharts : List Chart) : String × String :=
  match FindChartByName availableCharts chartName installedSources with
  | some chart => (chart.Version, chart.Repo)
  | none =>
    match FindChartBySource availableCharts installedSources with
    | some chart => (chart.Version, chart.Repo)
    | none => ("unknown", "unknown")

end chart

/-! ## `internal/helm` -/

namespace helm

/-- The release summary the checker works with (`helm.Release`). -/
structure Release where
  Name : String
  Namespace : String
  ChartName : String
  ChartRepo : String
  Version : String
  Status : String
  Revision : Int
  Sources : List String
  deriving DecidableEq, Repr

/-- The fields of Helm's `chart.Metadata` that the code reads. -/
structure Metadata where
  Name : String
  Version : String
  Sources : List String
  deriving DecidableEq, Repr

/-- Helm's `chart.Chart`: `Metadata` is a pointer and may be nil. -/
structure ChartData where
  Metadata : Option Metadata
  deriving DecidableEq, Repr

/-- Helm's `release.Info`, of which the code reads the status. -/
structure Info where
  Status : String
  deriving DecidableEq, Repr

/-- Helm's `release.Release` as `DecodeRelease` returns it: `Info` and `Chart` are
pointers and are nil when the decoded document omits them. -/
structure StoredRelease where
  Name : String
  Info : Option Info
  Chart : Option ChartData
  Version : Int
  Namespace : String
  deriving DecidableEq, Repr

/-- Go `extractRepoFromSources(sources)`. -/
def extractRepoFromSources : List String → String
  | [] => "unknown"
  | source :: rest =>
    if strings.Contains source "github.com" then
      let urlParts := strings.SplitSlash source
      if h : 3 < urlParts.length then urlParts.get ⟨3, h⟩
      else extractRepoFromSources rest
    else extractRepoFromSources rest

/-- The repo label and chart name that `ExtractReleaseInfo` derives from the chart
metadata. -/
def repoAndName (md : Metadata) : String × String :=
  if md.Name ≠ "" then
    match strings.SplitSlash md.Name with
    | [repo, name] => (repo, name)
    | _ =>
      if md.Sources.length > 0 then (extractRepoFromSources md.Sources, md.Name)
      else ("unknown", md.Name)
  else ("unknown", md.Name)

/-- Go `ExtractReleaseInfo(rel)`; `none` stands for the nil-pointer panic raised when
`rel.Chart`, `rel.Chart.Metadata` or `rel.Info` is nil. -/
def ExtractReleaseInfo (rel : StoredRelease) : Option Release :=
  match rel.Chart with
  | none => none
  | some chart =>
    match chart.Metadata with
    | none => none
    | some md =>
      match rel.Info with
      | none => none
      | some info =>
        some
          { Name := rel.Name
            Namespace := rel.Namespace
            ChartName := (repoAndName md).2
            ChartRepo := (repoAndName md).1
            Version := md.Version
            Status := info.Status
            Revision := rel.Version
            Sources := md.Sources }

/-- The owner of a source URL in the specification's words: for a URL of the form
`scheme://github.com/<owner>/...`, the segment that follows the host, and nothing for any
other string. -/
def githubOwner (source : String) : Option String :=
  match strings.SplitSlash source with
  | _ :: slashes :: host :: owner :: _ =>
    if slashes = "" ∧ host = "github.com" then some owner else none
  | _ => none

end helm

/-! ## `internal/rancher` -/

namespace rancher

/-- A release with its update information (`rancher.HelmApp`). -/
structure HelmApp where
  Release : helm.Release
  CurrentVersion : String
  LatestVersion : String
  UpdateAvailable : Bool
  Cluster : String
  deriving DecidableEq, Repr

/-- The keys of the table `internalCharts` (every key maps to `true`). -/
def internalCharts : List String :=
  [ "rancher-webhook", "fleet-agent-local", "rancher-provisioning-capi",
    "system-upgrade-controller", "rke2-canal", "rke2-coredns", "rke2-ingress-nginx",
    "rke2-metrics-server", "rke2-runtimeclasses", "rke2-snapshot-controller",
    "rke2-snapshot-controller-crd" ]

/-- The table `internalPrefixes`. -/
def internalPrefixes : List String :=
  ["rke2-", "rancher-", "fleet-", "cattle-"]

/-- Go `isInternalChart(chartName)`. -/
def isInternalChart (chartName : String) : Bool :=
  if internalCharts.contains chartName then true
  else internalPrefixes.any (fun pre => strings.HasPrefix chartName pre)

/-- The body of the loop of `processReleases` for one release (logging left out). -/
def processRelease (availableCharts : List chart.Chart) (clusterName : String)
    (rel : helm.Release) : HelmApp :=
  let found := chart.FindLatestVersionBySource rel.Sources rel.ChartName availableCharts
  let repo := found.2
  let latestVersion := if isInternalChart rel.ChartName then "managed" else found.1
  let app : HelmApp :=
    { Release := rel
      CurrentVersion := rel.Version
      LatestVersion := latestVersion
      UpdateAvailable := version.IsNewer rel.Version latestVersion
      Cluster := clusterName }
  if repo ≠ "unknown" then { app with Release := { app.Release with ChartRepo := repo } }
  else app

/-- Go `processReleases(releases, availableCharts, clusterName)`: the list `apps`
grown by one `append` per release. The releases are the non-nil pointers that
`getHelmReleases` returns. -/
def processReleases (releases : List helm.Release) (availableCharts : List chart.Chart)
    (clusterName : String) : List HelmApp :=
  releases.foldl (fun apps rel => apps ++ [processRelease availableCharts clusterName rel]) []

/-- The map `seenReleases` of `getHelmReleases`, as a list of bindings with distinct
keys. -/
abbrev SeenReleases := List (String × helm.Release)

/-- Map read `seenReleases[key]`. -/
def seenGet (seen : SeenReleases) (key : String) : Option helm.Release :=
  match seen with
  | [] => none
  | (k, v) :: rest => if k = key then some v else seenGet rest key

/-- Map write `seenReleases[key] = rel`. -/
def seenSet (seen : SeenReleases) (key : String) (rel : helm.Release) : SeenReleases :=
  match seen with
  | [] => [(key, rel)]
  | (k, v) :: rest => if k = key then (key, rel) :: rest else (k, v) :: seenSet rest key rel

/-- The key `fmt.Sprintf("%s/%s", rel.Namespace, rel.Name)`. -/
def releaseKey (rel : helm.StoredRelease) : String :=
  rel.Namespace ++ "/" ++ rel.Name

/-- One pass of the inner loop of `getHelmReleases` for a decoded record: the record
replaces the binding of its key when the key is new or its revision is higher.
`none` stands for the panic of `ExtractReleaseInfo`. -/
def seenStep (seen : SeenReleases) (rel : helm.StoredRelease) : Option SeenReleases :=
  let key := releaseKey rel
  match seenGet seen key with
  | some existingRel =>
    if rel.Version > existingRel.Revision then
      (helm.ExtractReleaseInfo rel).map (seenSet seen key)
    else some seen
  | none => (helm.ExtractReleaseInfo rel).map (seenSet seen key)

/-- The loops of `getHelmReleases` over the decoded records, in the order they are
met, starting from the map `seen`. -/
def seenLoop : SeenReleases → List helm.StoredRelease → Option SeenReleases
  | seen, [] => some seen
  | seen, rel :: rest =>
    match seenStep seen rel with
    | none => none
    | some seen1 => seenLoop seen1 rest

/-- Go `getHelmReleases`, from the successfully decoded records on: the values of
`seenReleases`. Go ranges over the map in an unspecified order; the list is given
here in the order the keys were first written. -/
def getHelmReleases (decoded : List helm.StoredRelease) : Option (List helm.Release) :=
  (seenLoop [] decoded).map (fun seen => seen.map Prod.snd)

/-- The resolver of the specification that skips the catalog lookup: one release is
resolved as in `processReleases`, except that for a chart classified as internally managed
`FindLatestVersionBySource` is not called, the latest version being `"managed"` and the
release being reported as it is. -/
def processReleaseSkippingLookup (availableCharts : List chart.Chart) (clusterName : String)
    (rel : helm.Release) : HelmApp :=
  if isInternalChart rel.ChartName then
    { Release := rel
      CurrentVersion := rel.Version
      LatestVersion := "managed"
      UpdateAvailable := version.IsNewer rel.Version "managed"
      Cluster := clusterName }
  else processRelease availableCharts clusterName rel

/-- The resolver of the specification that skips the catalog lookup for internal charts,
over a list of releases. -/
def processReleasesSkippingLookup (releases : List helm.Release)
    (availableCharts : List chart.Chart) (clusterName : String) : List HelmApp :=
  releases.map (processReleaseSkippingLookup availableCharts clusterName)

end rancher

/-! ## The catalog matcher -/

namespace chart

theorem sourcesMatch_iff (a b : List String) :
    sourcesMatch a b = true ↔ ∃ s, s ∈ a ∧ s ∈ b := by
  unfold sourcesMatch
  constructor
  · intro h
    split at h
    · exact absurd h (by simp)
    · rw [List.any_eq_true] at h
      obtain ⟨s, hb, ha⟩ := h
      exact ⟨s, by simpa using ha, hb⟩
  · rintro ⟨s, ha, hb⟩
    have hla : a.length ≠ 0 := by
      intro h0
      rw [List.length_eq_zero] at h0
      subst h0
      simp at ha
    have hlb : b.length ≠ 0 := by
      intro h0
      rw [List.length_eq_zero] at h0
      subst h0
      simp at hb
    rw [if_neg (by simp [hla, hlb])]
    rw [List.any_eq_true]
    exact ⟨s, hb, by simpa using ha⟩

theorem findByNameAndSources_eq_find (name : String) (sources : List String)
    (charts : List Chart) :
    findByNameAndSources name sources charts =
      charts.find? (fun c =>
        decide ((c.Chart = name ∨ c.Name = name) ∧ ∃ s, s ∈ c.Sources ∧ s ∈ sources)) := by
  induction charts with
  | nil => rfl
  | cons c rest ih =>
    simp only [findByNameAndSources, List.find?_cons, sourcesMatch_iff, ih]
    by_cases h : (c.Chart = name ∨ c.Name = name) ∧ ∃ s, s ∈ c.Sources ∧ s ∈ sources
    · simp [h]
    · simp [h]

theorem findByNameOnly_eq_find (name : String) (charts : List Chart) :
    findByNameOnly name charts =
      charts.find? (fun c => decide (c.Chart = name ∨ c.Name = name)) := by
  induction charts with
  | nil => rfl
  | cons c rest ih =>
    simp only [findByNameOnly, List.find?_cons, ih]
    by_cases h : c.Chart = name ∨ c.Name = name
    · simp [h]
    · simp [h]

theorem FindChartBySource_eq_find (charts : List Chart) (sources : List String) :
    FindChartBySource charts sources =
      charts.find? (fun c => decide (∃ s, s ∈ c.Sources ∧ s ∈ sources)) := by
  induction charts with
  | nil => rfl
  | cons c rest ih =>
    simp only [FindChartBySource, List.find?_cons, ih]
    by_cases h : ∃ s, s ∈ c.Sources ∧ s ∈ sources
    · have h1 : sourcesMatch c.Sources sources = true := (sourcesMatch_iff _ _).2 h
      simp [h, h1]
    · have h1 : ¬ sourcesMatch c.Sources sources = true := fun hm => h ((sourcesMatch_iff _ _).1 hm)
      simp [h, h1]

end chart

/-- C1: `FindLatestVersionBySource` answers with the version and repo of the first
catalog entry whose chart key or name equals the chart name and whose sources share an
element with the installed sources; failing that, of the first entry with that name;
failing that, of the first entry sharing a source; failing that, with
`("unknown", "unknown")`. A name-and-source match placed after a name-only match wins
(the two `nginx` entries), an empty source list on either side never matches, and the
empty catalog gives `("unknown", "unknown")`. -/
theorem FindLatestVersionBySource_tiers :
    (∀ (installed : List String) (name : String) (catalog : List chart.Chart),
      chart.FindLatestVersionBySource installed name catalog =
        match catalog.find? (fun c =>
            decide ((c.Chart = name ∨ c.Name = name) ∧ ∃ s, s ∈ c.Sources ∧ s ∈ installed)) with
        | some c => (c.Version, c.Repo)
        | none =>
          match catalog.find? (fun c => decide (c.Chart = name ∨ c.Name = name)) with
          | some c => (c.Version, c.Repo)
          | none =>
            match catalog.find? (fun c => decide (∃ s, s ∈ c.Sources ∧ s ∈ installed)) with
            | some c => (c.Version, c.Repo)
            | none => ("unknown", "unknown")) ∧
    chart.FindLatestVersionBySource ["github.com/b/nginx"] "nginx"
        [ ⟨"1.0.0", "repo-a", "nginx", "nginx", "", ["github.com/a/nginx"]⟩,
          ⟨"2.0.0", "repo-b", "nginx", "nginx", "", ["github.com/b/nginx"]⟩ ]
      = ("2.0.0", "repo-b") ∧
    (∀ l : List String, chart.sourcesMatch [] l = false ∧ chart.sourcesMatch l [] = false) ∧
    (∀ (installed : List String) (name : String),
      chart.FindLatestVersionBySource installed name [] = ("unknown", "unknown")) := by
  refine ⟨?_, by decide, ?_, ?_⟩
  · intro installed name catalog
    unfold chart.FindLatestVersionBySource chart.FindChartByName
    rw [chart.findByNameAndSources_eq_find, chart.findByNameOnly_eq_find,
      chart.FindChartBySource_eq_find]
    cases catalog.find? (fun c =>
        decide ((c.Chart = name ∨ c.Name = name) ∧ ∃ s, s ∈ c.Sources ∧ s ∈ installed)) with
    | some c => rfl
    | none =>
      cases catalog.find? (fun c => decide (c.Chart = name ∨ c.Name = name)) with
      | some c => rfl
      | none => rfl
  · intro l
    constructor
    · simp [chart.sourcesMatch]
    · simp [chart.sourcesMatch]
  · intro installed name
    rfl

/-! ## The version comparator -/

namespace version

theorem newerLoop_three (n1 c1 n2 c2 n3 c3 : Nat) :
    newerLoop [(n1, c1), (n2, c2), (n3, c3)] = true ↔
      c1 < n1 ∨ (n1 = c1 ∧ (c2 < n2 ∨ (n2 = c2 ∧ c3 < n3))) := by
  simp only [newerLoop]
  split_ifs <;> simp <;> omega

end version

/-- C2: `IsNewer` is false for the candidates `"unknown"`, `"internal"` and
`"managed"`; for every other candidate it is true exactly when the parsed candidate
triple is lexicographically strictly greater than the parsed current triple, the first
differing component deciding and equal triples giving false. -/
theorem IsNewer_lexicographic :
    (∀ current : String,
      version.IsNewer current "unknown" = false ∧
      version.IsNewer current "internal" = false ∧
      version.IsNewer current "managed" = false) ∧
    (∀ current candidate : String,
      candidate ≠ "unknown" → candidate ≠ "internal" → candidate ≠ "managed" →
      (version.IsNewer current candidate = true ↔
        (version.parseVersion current).1 < (version.parseVersion candidate).1 ∨
        ((version.parseVersion candidate).1 = (version.parseVersion current).1 ∧
          ((version.parseVersion current).2.1 < (version.parseVersion candidate).2.1 ∨
          ((version.parseVersion candidate).2.1 = (version.parseVersion current).2.1 ∧
            (version.parseVersion current).2.2 < (version.parseVersion candidate).2.2))))) ∧
    version.IsNewer "1.2.3" "1.2.3" = false ∧
    version.IsNewer "1.2.3" "1.3.0" = true ∧
    version.IsNewer "2.0.0" "1.9.9" = false := by
  refine ⟨?_, ?_, by decide, by decide, by decide⟩
  · intro current
    simp [version.IsNewer]
  · intro current candidate h1 h2 h3
    unfold version.IsNewer
    rw [if_neg (by simp [h1, h2, h3])]
    exact version.newerLoop_three _ _ _ _ _ _

/-- Instance of C2 at a concrete pair of versions. -/
theorem IsNewer_lexicographic_witness :
    (version.IsNewer "1.2.3" "v1.10" = true ↔
        (version.parseVersion "1.2.3").1 < (version.parseVersion "v1.10").1 ∨
        ((version.parseVersion "v1.10").1 = (version.parseVersion "1.2.3").1 ∧
          ((version.parseVersion "1.2.3").2.1 < (version.parseVersion "v1.10").2.1 ∨
          ((version.parseVersion "v1.10").2.1 = (version.parseVersion "1.2.3").2.1 ∧
            (version.parseVersion "1.2.3").2.2 < (version.parseVersion "v1.10").2.2)))) ∧
    version.IsNewer "1.2.3" "v1.10" = true :=
  ⟨IsNewer_lexicographic.2.1 "1.2.3" "v1.10" (by decide) (by decide) (by decide), by decide⟩

/-! ## The resolver -/

namespace rancher

theorem foldl_append_singleton {α β : Type} (f : α → β) (l : List α) (init : List β) :
    l.foldl (fun acc x => acc ++ [f x]) init = init ++ l.map f := by
  induction l generalizing init with
  | nil => simp
  | cons x rest ih => simp [ih]

theorem processReleases_eq_map (releases : List helm.Release) (catalog : List chart.Chart)
    (cluster : String) :
    processReleases releases catalog cluster = releases.map (processRelease catalog cluster) := by
  unfold processReleases
  rw [foldl_append_singleton]
  rfl

theorem processReleases_getElem? (releases : List helm.Release) (catalog : List chart.Chart)
    (cluster : String) (i : Nat) (rel : helm.Release) (h : releases[i]? = some rel) :
    (processReleases releases catalog cluster)[i]? = some (processRelease catalog cluster rel) := by
  rw [processReleases_eq_map, List.getElem?_map, h]
  rfl

theorem isInternalChart_iff (name : String) :
    isInternalChart name = true ↔
      name ∈ internalCharts ∨
        ∃ p, p ∈ ["rke2-", "rancher-", "fleet-", "cattle-"] ∧ p.data <+: name.data := by
  unfold isInternalChart
  by_cases h : name ∈ internalCharts
  · simp [h]
  · have hc : internalCharts.contains name = false := by simpa using h
    rw [hc]
    simp only [Bool.false_eq_true, if_false, h, false_or, List.any_eq_true, internalPrefixes,
      strings.HasPrefix, List.isPrefixOf_iff_prefix]

theorem processRelease_internal (catalog : List chart.Chart) (cluster : String)
    (rel : helm.Release) (h : isInternalChart rel.ChartName = true) :
    (processRelease catalog cluster rel).LatestVersion = "managed" ∧
      (processRelease catalog cluster rel).UpdateAvailable = false := by
  unfold processRelease
  simp only [h, if_true]
  split <;> simp [version.IsNewer]

theorem processRelease_external (catalog : List chart.Chart) (cluster : String)
    (rel : helm.Release) (h : isInternalChart rel.ChartName = false) :
    (processRelease catalog cluster rel).LatestVersion =
        (chart.FindLatestVersionBySource rel.Sources rel.ChartName catalog).1 ∧
      (processRelease catalog cluster rel).UpdateAvailable =
        version.IsNewer rel.Version
          (chart.FindLatestVersionBySource rel.Sources rel.ChartName catalog).1 := by
  unfold processRelease
  simp only [h, Bool.false_eq_true, if_false]
  split <;> simp

theorem processRelease_release (catalog : List chart.Chart) (cluster : String)
    (rel : helm.Release) :
    (processRelease catalog cluster rel).CurrentVersion = rel.Version ∧
      (processRelease catalog cluster rel).Cluster = cluster ∧
      (processRelease catalog cluster rel).Release =
        { rel with
          ChartRepo :=
            if (chart.FindLatestVersionBySource rel.Sources rel.ChartName catalog).2 ≠ "unknown"
            then (chart.FindLatestVersionBySource rel.Sources rel.ChartName catalog).2
            else rel.ChartRepo } := by
  unfold processRelease
  by_cases hr : (chart.FindLatestVersionBySource rel.Sources rel.ChartName catalog).2 = "unknown"
  · simp [hr]
  · simp [hr]

end rancher

/-- C3: for every release whose chart name is internally managed (a key of
`internalCharts`, or starting with `rke2-`, `rancher-`, `fleet-` or `cattle-`), whatever
its installed version and whatever the catalog, the `HelmApp` that `processReleases` emits
at the release's position has `LatestVersion = "managed"` and `UpdateAvailable = false`. -/
theorem processReleases_internal_managed (releases : List helm.Release)
    (catalog : List chart.Chart) (cluster : String) (i : Nat) (rel : helm.Release)
    (hrel : releases[i]? = some rel)
    (hinternal : rel.ChartName ∈ rancher.internalCharts ∨
      ∃ p, p ∈ ["rke2-", "rancher-", "fleet-", "cattle-"] ∧ p.data <+: rel.ChartName.data) :
    ∃ app, (rancher.processReleases releases catalog cluster)[i]? = some app ∧
      app.LatestVersion = "managed" ∧ app.UpdateAvailable = false :=
  ⟨rancher.processRelease catalog cluster rel,
    rancher.processReleases_getElem? releases catalog cluster i rel hrel,
    rancher.processRelease_internal catalog cluster rel
      ((rancher.isInternalChart_iff rel.ChartName).2 hinternal)⟩

/-- Instance of C3: `rke2-coredns` at version `1.0.0` against a catalog that offers
`rke2-coredns` `9.9.9`. -/
theorem processReleases_internal_managed_witness :
    ∃ app, (rancher.processReleases
        [⟨"coredns", "kube-system", "rke2-coredns", "unknown", "1.0.0", "deployed", 1, []⟩]
        [⟨"9.9.9", "rke2-charts", "rke2-coredns", "rke2-coredns", "", []⟩] "local")[0]? = some app ∧
      app.LatestVersion = "managed" ∧ app.UpdateAvailable = false :=
  processReleases_internal_managed
    [⟨"coredns", "kube-system", "rke2-coredns", "unknown", "1.0.0", "deployed", 1, []⟩]
    [⟨"9.9.9", "rke2-charts", "rke2-coredns", "rke2-coredns", "", []⟩] "local" 0
    ⟨"coredns", "kube-system", "rke2-coredns", "unknown", "1.0.0", "deployed", 1, []⟩
    rfl (Or.inl (by decide))

/-- C4: `processReleases` emits one `HelmApp` per release, in input order: the output is
as long as the input and its `i`-th element comes from the `i`-th release, with
`CurrentVersion` the release's version, `Cluster` the cluster name, and the release copied
except that `ChartRepo` becomes the matched repo `r` when `r` is not `"unknown"`; for a
release that is not internally managed, `LatestVersion` is the matched version `v` and
`UpdateAvailable` is `IsNewer` of the release's version and `v`. -/
theorem processReleases_resolves (releases : List helm.Release) (catalog : List chart.Chart)
    (cluster : String) :
    (rancher.processReleases releases catalog cluster).length = releases.length ∧
    ∀ (i : Nat) (rel : helm.Release), releases[i]? = some rel →
      ∃ app, (rancher.processReleases releases catalog cluster)[i]? = some app ∧
        app.CurrentVersion = rel.Version ∧
        app.Cluster = cluster ∧
        app.Release =
          { rel with
            ChartRepo :=
              if (chart.FindLatestVersionBySource rel.Sources rel.ChartName catalog).2 ≠ "unknown"
              then (chart.FindLatestVersionBySource rel.Sources rel.ChartName catalog).2
              else rel.ChartRepo } ∧
        (rancher.isInternalChart rel.ChartName = false →
          app.LatestVersion =
            (chart.FindLatestVersionBySource rel.Sources rel.ChartName catalog).1 ∧
          app.UpdateAvailable =
            version.IsNewer rel.Version
              (chart.FindLatestVersionBySource rel.Sources rel.ChartName catalog).1) := by
  constructor
  · rw [rancher.processReleases_eq_map, List.length_map]
  · intro i rel hrel
    refine ⟨rancher.processRelease catalog cluster rel,
      rancher.processReleases_getElem? releases catalog cluster i rel hrel, ?_, ?_, ?_, ?_⟩
    · exact (rancher.processRelease_release catalog cluster rel).1
    · exact (rancher.processRelease_release catalog cluster rel).2.1
    · exact (rancher.processRelease_release catalog cluster rel).2.2
    · intro hext
      exact rancher.processRelease_external catalog cluster rel hext

/-- Instance of C4, the end-to-end scenario: chart `app` `2.0.0` of repo `stable` with
source `github.com/org/app`, and release `app` `1.5.0` with the same source, give current
version `1.5.0`, latest version `2.0.0`, an update available and the repo label `stable`. -/
theorem processReleases_resolves_witness :
    ∃ app, (rancher.processReleases
        [⟨"app", "default", "app", "org", "1.5.0", "deployed", 3, ["github.com/org/app"]⟩]
        [⟨"2.0.0", "stable", "app", "app", "", ["github.com/org/app"]⟩] "prod")[0]? = some app ∧
      app.CurrentVersion = "1.5.0" ∧ app.LatestVersion = "2.0.0" ∧
      app.UpdateAvailable = true ∧ app.Cluster = "prod" ∧
      app.Release = ⟨"app", "default", "app", "stable", "1.5.0", "deployed", 3,
        ["github.com/org/app"]⟩ := by
  obtain ⟨app, happ, hcur, hcl, hrel, hext⟩ :=
    (processReleases_resolves
      [⟨"app", "default", "app", "org", "1.5.0", "deployed", 3, ["github.com/org/app"]⟩]
      [⟨"2.0.0", "stable", "app", "app", "", ["github.com/org/app"]⟩] "prod").2 0
      ⟨"app", "default", "app", "org", "1.5.0", "deployed", 3, ["github.com/org/app"]⟩ rfl
  obtain ⟨hlatest, hupd⟩ := hext (by decide)
  refine ⟨app, happ, hcur, ?_, ?_, hcl, ?_⟩
  · rw [hlatest]; decide
  · rw [hupd]; decide
  · rw [hrel]; decide

/-- C10, as stated, fails: with the empty catalog the internally managed release
`rke2-coredns` is reported with `LatestVersion = "managed"`, not `"unknown"`. -/
theorem processReleases_empty_catalog_counterexample :
    (rancher.processReleases
        [⟨"coredns", "kube-system", "rke2-coredns", "unknown", "1.0.0", "deployed", 1, []⟩]
        [] "local").map (fun app => app.LatestVersion) = ["managed"] := by
  decide

/-- C10, amended: with the empty catalog every release is still reported, one `HelmApp`
per release in input order, and its `LatestVersion` is `"unknown"` unless the chart is
internally managed, in which case it is `"managed"`. -/
theorem processReleases_empty_catalog (releases : List helm.Release) (cluster : String) :
    (rancher.processReleases releases [] cluster).length = releases.length ∧
    ∀ (i : Nat) (rel : helm.Release), releases[i]? = some rel →
      ∃ app, (rancher.processReleases releases [] cluster)[i]? = some app ∧
        app.LatestVersion =
          if rancher.isInternalChart rel.ChartName = true then "managed" else "unknown" := by
  constructor
  · rw [rancher.processReleases_eq_map, List.length_map]
  · intro i rel hrel
    refine ⟨rancher.processRelease [] cluster rel,
      rancher.processReleases_getElem? releases [] cluster i rel hrel, ?_⟩
    by_cases h : rancher.isInternalChart rel.ChartName = true
    · rw [if_pos h]
      exact (rancher.processRelease_internal [] cluster rel h).1
    · rw [if_neg h]
      have h0 : rancher.isInternalChart rel.ChartName = false := by simpa using h
      rw [(rancher.processRelease_external [] cluster rel h0).1]
      rfl

/-- Instance of the amended C10: the release `app` against the empty catalog is reported
with `LatestVersion = "unknown"`. -/
theorem processReleases_empty_catalog_witness :
    ∃ app, (rancher.processReleases
        [⟨"app", "default", "app", "org", "1.5.0", "deployed", 3, ["github.com/org/app"]⟩]
        [] "prod")[0]? = some app ∧ app.LatestVersion = "unknown" := by
  obtain ⟨app, happ, hlatest⟩ :=
    (processReleases_empty_catalog
      [⟨"app", "default", "app", "org", "1.5.0", "deployed", 3, ["github.com/org/app"]⟩]
      "prod").2 0
      ⟨"app", "default", "app", "org", "1.5.0", "deployed", 3, ["github.com/org/app"]⟩ rfl
  exact ⟨app, happ, by rw [hlatest]; decide⟩

/-! ## The version parser -/

namespace version

theorem digitsValue_snoc (ds : List Char) (d : Char) :
    digitsValue (ds ++ [d]) = digitsValue ds * 10 + (d.toNat - '0'.toNat) := by
  simp [digitsValue, List.foldl_append]

theorem digitChar_isDigit (m : Nat) (hm : m < 10) :
    isDigit (Nat.digitChar m) = true ∧ (Nat.digitChar m).toNat - '0'.toNat = m := by
  interval_cases m <;> exact ⟨by decide, by decide⟩

theorem toDigitsCore_decimal (gas : Nat) :
    ∀ (n : Nat) (tail : List Char), n < gas →
      ∃ run, (∀ c, c ∈ run → isDigit c = true) ∧ digitsValue run = n ∧ run ≠ [] ∧
        Nat.toDigitsCore 10 gas n tail = run ++ tail := by
  induction gas with
  | zero => intro n tail h; omega
  | succ gas ih =>
    intro n tail hn
    obtain ⟨hd, hv⟩ := digitChar_isDigit (n % 10) (Nat.mod_lt n (by decide))
    have hlast : ∀ c, c ∈ [Nat.digitChar (n % 10)] → isDigit c = true := by
      intro c hc
      rw [List.mem_singleton] at hc
      rw [hc]; exact hd
    unfold Nat.toDigitsCore
    by_cases hq : n / 10 = 0
    · simp only [hq, if_true]
      refine ⟨[Nat.digitChar (n % 10)], hlast, ?_, by simp, rfl⟩
      have hone : digitsValue [Nat.digitChar (n % 10)] =
          digitsValue ([] ++ [Nat.digitChar (n % 10)]) := rfl
      rw [hone, digitsValue_snoc, hv]
      simp [digitsValue]
      omega
    · simp only [hq, if_false]
      obtain ⟨run, hall, hval, _, hrun⟩ :=
        ih (n / 10) (Nat.digitChar (n % 10) :: tail) (by omega)
      refine ⟨run ++ [Nat.digitChar (n % 10)], ?_, ?_, by simp, by rw [hrun]; simp⟩
      · intro c hc
        rcases List.mem_append.1 hc with h | h
        · exact hall c h
        · exact hlast c h
      · rw [digitsValue_snoc, hv, hval]
        omega

/-- The decimal writing `Nat.repr n` is a non-empty run of digits of value `n`. -/
theorem repr_decimal (n : Nat) :
    (Nat.repr n).data ≠ [] ∧ (∀ c, c ∈ (Nat.repr n).data → isDigit c = true) ∧
      digitsValue (Nat.repr n).data = n := by
  obtain ⟨ds, hall, hval, hne, hds⟩ := toDigitsCore_decimal (n + 1) n [] (by omega)
  have h : (Nat.repr n).data = ds := by
    simp [Nat.repr, Nat.toDigits, hds, List.asString]
  rw [h]
  exact ⟨hne, hall, hval⟩

theorem takeWhile_digits_append (ds rest : List Char) (hall : ∀ c, c ∈ ds → isDigit c = true) :
    (ds ++ rest).takeWhile isDigit = ds ++ rest.takeWhile isDigit ∧
      (ds ++ rest).dropWhile isDigit = rest.dropWhile isDigit := by
  induction ds with
  | nil => simp
  | cons d ds ih =>
    have hd : isDigit d = true := hall d (List.mem_cons_self d ds)
    have ih1 := ih (fun c hc => hall c (List.mem_cons_of_mem d hc))
    simp [List.takeWhile_cons, List.dropWhile_cons, hd, ih1.1, ih1.2]

theorem takeWhile_no_digit (rest : List Char)
    (h : ∀ c, rest.head? = some c → isDigit c = false) :
    rest.takeWhile isDigit = [] ∧ rest.dropWhile isDigit = rest := by
  cases rest with
  | nil => simp
  | cons c cs =>
    have hc : isDigit c = false := h c rfl
    simp [List.takeWhile_cons, List.dropWhile_cons, hc]

theorem span_digits (ds rest : List Char) (hall : ∀ c, c ∈ ds → isDigit c = true)
    (h : ∀ c, rest.head? = some c → isDigit c = false) :
    (ds ++ rest).takeWhile isDigit = ds ∧ (ds ++ rest).dropWhile isDigit = rest := by
  obtain ⟨h1, h2⟩ := takeWhile_digits_append ds rest hall
  obtain ⟨h3, h4⟩ := takeWhile_no_digit rest h
  rw [h1, h2, h3, h4]
  simp

theorem optGroup_digits (ds rest : List Char) (hne : ds ≠ [])
    (hall : ∀ c, c ∈ ds → isDigit c = true)
    (h : ∀ c, rest.head? = some c → isDigit c = false) :
    optGroup ('.' :: (ds ++ rest)) = (ds, rest) := by
  obtain ⟨h1, h2⟩ := span_digits ds rest hall h
  simp only [optGroup, h1, h2]
  rw [if_neg]
  simpa using hne

theorem optGroup_nil : optGroup [] = ([], []) := rfl

theorem dot_head_no_digit (rest : List Char) :
    ∀ c, ('.' :: rest).head? = some c → isDigit c = false := by
  intro c hc
  simp only [List.head?_cons, Option.some.injEq] at hc
  rw [← hc]; decide

theorem nil_head_no_digit : ∀ c, ([] : List Char).head? = some c → isDigit c = false := by
  intro c hc
  simp at hc

theorem FindStringSubmatch_three (d1 d2 d3 rest : List Char)
    (hne1 : d1 ≠ []) (hall1 : ∀ c, c ∈ d1 → isDigit c = true)
    (hne2 : d2 ≠ []) (hall2 : ∀ c, c ∈ d2 → isDigit c = true)
    (hne3 : d3 ≠ []) (hall3 : ∀ c, c ∈ d3 → isDigit c = true)
    (h : ∀ c, rest.head? = some c → isDigit c = false) :
    FindStringSubmatch (d1 ++ '.' :: (d2 ++ '.' :: (d3 ++ rest))) = some (d1, d2, d3) := by
  obtain ⟨h1, h2⟩ := span_digits d1 ('.' :: (d2 ++ '.' :: (d3 ++ rest))) hall1 (dot_head_no_digit _)
  unfold FindStringSubmatch
  rw [h1, h2, if_neg (by simpa using hne1)]
  simp only [optGroup_digits d2 ('.' :: (d3 ++ rest)) hne2 hall2 (dot_head_no_digit _),
    optGroup_digits d3 rest hne3 hall3 h]

theorem FindStringSubmatch_two (d1 d2 : List Char)
    (hne1 : d1 ≠ []) (hall1 : ∀ c, c ∈ d1 → isDigit c = true)
    (hne2 : d2 ≠ []) (hall2 : ∀ c, c ∈ d2 → isDigit c = true) :
    FindStringSubmatch (d1 ++ '.' :: d2) = some (d1, d2, []) := by
  obtain ⟨h1, h2⟩ := span_digits d1 ('.' :: d2) hall1 (dot_head_no_digit _)
  have hg := optGroup_digits d2 [] hne2 hall2 nil_head_no_digit
  rw [List.append_nil] at hg
  unfold FindStringSubmatch
  rw [h1, h2, if_neg (by simpa using hne1)]
  simp only [hg, optGroup_nil]

theorem FindStringSubmatch_one (d1 : List Char)
    (hne1 : d1 ≠ []) (hall1 : ∀ c, c ∈ d1 → isDigit c = true) :
    FindStringSubmatch d1 = some (d1, [], []) := by
  obtain ⟨h1, h2⟩ := span_digits d1 [] hall1 nil_head_no_digit
  rw [List.append_nil] at h1 h2
  unfold FindStringSubmatch
  rw [h1, h2, if_neg (by simpa using hne1)]
  simp only [optGroup_nil]

theorem FindStringSubmatch_no_digit (s : List Char)
    (h : ∀ c, s.head? = some c → isDigit c = false) : FindStringSubmatch s = none := by
  unfold FindStringSubmatch
  rw [(takeWhile_no_digit s h).1]
  rfl

theorem component_repr (n : Nat) :
    component (Nat.repr n).data = if n ≤ maxInt then n else 0 := by
  obtain ⟨hne, _, hval⟩ := repr_decimal n
  unfold component Atoi
  rw [if_neg (by simpa using hne), hval]
  split_ifs <;> rfl

theorem component_nil : component [] = 0 := rfl

/-- A string whose first character is neither `v` nor `V` keeps both prefixes. -/
theorem TrimPrefix_none (s : String)
    (hv : s.data.head? ≠ some 'v') (hV : s.data.head? ≠ some 'V') :
    strings.TrimPrefix (strings.TrimPrefix s "v") "V" = s := by
  have h1 : strings.HasPrefix s "v" = false := by
    unfold strings.HasPrefix
    cases hs : s.data with
    | nil => rfl
    | cons c cs =>
      rw [hs] at hv
      have : c ≠ 'v' := fun hc => hv (by simp [hc])
      simp [List.isPrefixOf, Ne.symm this]
  have h2 : strings.HasPrefix s "V" = false := by
    unfold strings.HasPrefix
    cases hs : s.data with
    | nil => rfl
    | cons c cs =>
      rw [hs] at hV
      have : c ≠ 'V' := fun hc => hV (by simp [hc])
      simp [List.isPrefixOf, Ne.symm this]
  unfold strings.TrimPrefix
  simp [h1, h2]

theorem parseVersion_of_clean (s : String)
    (hv : s.data.head? ≠ some 'v') (hV : s.data.head? ≠ some 'V') :
    parseVersion s =
      match FindStringSubmatch s.data with
      | none => (0, 0, 0)
      | some (m1, m2, m3) => (component m1, component m2, component m3) := by
  unfold parseVersion
  simp only [TrimPrefix_none s hv hV]

theorem digit_head (ds rest : List Char) (hne : ds ≠ [])
    (hall : ∀ c, c ∈ ds → isDigit c = true) :
    (ds ++ rest).head? ≠ some 'v' ∧ (ds ++ rest).head? ≠ some 'V' := by
  cases ds with
  | nil => exact absurd rfl hne
  | cons d ds =>
    have hd : isDigit d = true := hall d (List.mem_cons_self d ds)
    constructor
    · intro h
      simp only [List.cons_append, List.head?_cons, Option.some.injEq] at h
      rw [h] at hd
      exact absurd hd (by decide)
    · intro h
      simp only [List.cons_append, List.head?_cons, Option.some.injEq] at h
      rw [h] at hd
      exact absurd hd (by decide)

theorem TrimPrefix_v_cons (s : String) : strings.TrimPrefix ("v" ++ s) "v" = s := by
  unfold strings.TrimPrefix strings.HasPrefix
  simp [List.isPrefixOf]

theorem TrimPrefix_V_cons (s : String) : strings.TrimPrefix ("V" ++ s) "V" = s := by
  unfold strings.TrimPrefix strings.HasPrefix
  simp [List.isPrefixOf]

theorem TrimPrefix_v_of_V (s : String) : strings.TrimPrefix ("V" ++ s) "v" = "V" ++ s := by
  unfold strings.TrimPrefix strings.HasPrefix
  simp [List.isPrefixOf]

theorem TrimPrefix_of_head (s pre : String) (c : Char) (hpre : pre.data = [c])
    (h : s.data.head? ≠ some c) : strings.TrimPrefix s pre = s := by
  unfold strings.TrimPrefix strings.HasPrefix
  rw [hpre]
  cases hs : s.data with
  | nil => simp [List.isPrefixOf]
  | cons d ds =>
    rw [hs] at h
    have : d ≠ c := fun hc => h (by simp [hc])
    simp [List.isPrefixOf, Ne.symm this]

theorem parseVersion_of_letter (s : String) (c : Char) (hc : isDigit c = false)
    (h : (strings.TrimPrefix (strings.TrimPrefix s "v") "V").data.head? = some c) :
    parseVersion s = (0, 0, 0) := by
  unfold parseVersion
  have hnone : FindStringSubmatch (strings.TrimPrefix (strings.TrimPrefix s "v") "V").data = none := by
    apply FindStringSubmatch_no_digit
    intro d hd
    rw [h] at hd
    simp only [Option.some.injEq] at hd
    rw [← hd]; exact hc
  simp only [hnone]

end version

namespace version

theorem parseVersion_congr (s t : String)
    (h : strings.TrimPrefix (strings.TrimPrefix s "v") "V" =
      strings.TrimPrefix (strings.TrimPrefix t "v") "V") :
    parseVersion s = parseVersion t := by
  unfold parseVersion
  simp only [h]

theorem parseVersion_digits (s : String) (ds rest : List Char) (hs : s.data = ds ++ rest)
    (hne : ds ≠ []) (hall : ∀ c, c ∈ ds → isDigit c = true) :
    parseVersion s =
      match FindStringSubmatch (ds ++ rest) with
      | none => (0, 0, 0)
      | some (m1, m2, m3) => (component m1, component m2, component m3) := by
  have hh := digit_head ds rest hne hall
  rw [← hs] at hh
  rw [parseVersion_of_clean s hh.1 hh.2, hs]

end version

/-- C8, as stated, fails: a component too large for Go's `int` is not returned, it is
read as `0` (`strconv.Atoi` reports a range error and the component keeps its initial
value); and the string `v2.1`, which does not begin with a digit, does not parse to
`(0, 0, 0)`, the prefix being removed first. -/
theorem parseVersion_decimal_counterexample :
    version.parseVersion (Nat.repr 9223372036854775808 ++ "." ++ Nat.repr 1 ++ "." ++ Nat.repr 2)
        = (0, 1, 2) ∧
      version.parseVersion (Nat.repr 9223372036854775808 ++ "." ++ Nat.repr 1 ++ "." ++ Nat.repr 2)
        ≠ (9223372036854775808, 1, 2) ∧
      version.parseVersion "v2.1" ≠ (0, 0, 0) := by
  decide

/-- C8, amended: for all natural numbers `a`, `b`, `c` written in decimal, `parseVersion`
returns the numeric triple in which a component above `maxInt = 2^63 - 1` is replaced by
`0`: `a.b.c` followed by any suffix that does not begin with a digit gives the three
components (so a fourth segment is ignored), `a.b` gives a patch of `0` and `a` a minor
and patch of `0`; and a string that is empty or does not begin with a digit once the
prefix is removed gives `(0, 0, 0)`. -/
theorem parseVersion_decimal :
    (∀ (a b c : Nat) (suffix : String),
      (∀ ch, suffix.data.head? = some ch → version.isDigit ch = false) →
      version.parseVersion (Nat.repr a ++ "." ++ Nat.repr b ++ "." ++ Nat.repr c ++ suffix) =
        (if a ≤ version.maxInt then a else 0, if b ≤ version.maxInt then b else 0,
          if c ≤ version.maxInt then c else 0)) ∧
    (∀ a b : Nat,
      version.parseVersion (Nat.repr a ++ "." ++ Nat.repr b) =
        (if a ≤ version.maxInt then a else 0, if b ≤ version.maxInt then b else 0, 0)) ∧
    (∀ a : Nat,
      version.parseVersion (Nat.repr a) = (if a ≤ version.maxInt then a else 0, 0, 0)) ∧
    (∀ s : String,
      (∀ ch, (strings.TrimPrefix (strings.TrimPrefix s "v") "V").data.head? = some ch →
        version.isDigit ch = false) →
      version.parseVersion s = (0, 0, 0)) ∧
    version.parseVersion "" = (0, 0, 0) ∧
    version.parseVersion "v2.1" = (2, 1, 0) ∧
    version.parseVersion "1.2.3-beta" = (1, 2, 3) ∧
    version.parseVersion "1.2.3.4" = (1, 2, 3) := by
  refine ⟨?_, ?_, ?_, ?_, by decide, by decide, by decide, by decide⟩
  · intro a b c suffix hsuf
    obtain ⟨hna, hda, _⟩ := version.repr_decimal a
    obtain ⟨hnb, hdb, _⟩ := version.repr_decimal b
    obtain ⟨hnc, hdc, _⟩ := version.repr_decimal c
    have hs : (Nat.repr a ++ "." ++ Nat.repr b ++ "." ++ Nat.repr c ++ suffix).data =
        (Nat.repr a).data ++
          '.' :: ((Nat.repr b).data ++ '.' :: ((Nat.repr c).data ++ suffix.data)) := by
      simp [String.data_append]
    rw [version.parseVersion_digits _ _ _ hs hna hda,
      version.FindStringSubmatch_three _ _ _ _ hna hda hnb hdb hnc hdc hsuf]
    simp only [version.component_repr]
  · intro a b
    obtain ⟨hna, hda, _⟩ := version.repr_decimal a
    obtain ⟨hnb, hdb, _⟩ := version.repr_decimal b
    have hs : (Nat.repr a ++ "." ++ Nat.repr b).data =
        (Nat.repr a).data ++ '.' :: (Nat.repr b).data := by
      simp [String.data_append]
    rw [version.parseVersion_digits _ _ _ hs hna hda,
      version.FindStringSubmatch_two _ _ hna hda hnb hdb]
    simp only [version.component_repr, version.component_nil]
  · intro a
    obtain ⟨hna, hda, _⟩ := version.repr_decimal a
    have hs : (Nat.repr a).data = (Nat.repr a).data ++ [] := by simp
    rw [version.parseVersion_digits _ _ _ hs hna hda, List.append_nil,
      version.FindStringSubmatch_one _ hna hda]
    simp only [version.component_repr, version.component_nil]
  · intro s hs
    unfold version.parseVersion
    simp only [version.FindStringSubmatch_no_digit _ hs]

/-- Instance of the amended C8: `1.2.3` followed by the suffix `-beta`. -/
theorem parseVersion_decimal_witness :
    version.parseVersion (Nat.repr 1 ++ "." ++ Nat.repr 2 ++ "." ++ Nat.repr 3 ++ "-beta") =
      (if 1 ≤ version.maxInt then 1 else 0, if 2 ≤ version.maxInt then 2 else 0,
        if 3 ≤ version.maxInt then 3 else 0) ∧
    version.parseVersion "1.2.3-beta" = (1, 2, 3) :=
  ⟨parseVersion_decimal.1 1 2 3 "-beta" (by decide), by decide⟩

/-- C9, as stated, fails: in `vV1.2.3` both letters are removed, `TrimPrefix` being applied
once for `v` and then once for `V`, and the result is `(1, 2, 3)`, not `(0, 0, 0)`. -/
theorem parseVersion_leading_v_counterexample :
    version.parseVersion ("v" ++ "V1.2.3") = (1, 2, 3) ∧
      version.parseVersion ("v" ++ "V1.2.3") ≠ (0, 0, 0) := by
  decide

/-- C9, amended: `parseVersion` removes a leading `v` and then a leading `V`. For a string
`s` that begins with neither letter, `v` + `s` and `V` + `s` parse as `s`. For a string `s`
that begins with `v` or `V`, `V` + `s` parses to `(0, 0, 0)`, and so does `v` + `s` when `s`
begins with `v`. The prefix `vV` is removed whole: `vV` + `t` parses as `t` when `t` begins
with neither letter, and to `(0, 0, 0)` when `t` begins with `v` or `V`. -/
theorem parseVersion_leading_v :
    (∀ s : String, s.data.head? ≠ some 'v' → s.data.head? ≠ some 'V' →
      version.parseVersion ("v" ++ s) = version.parseVersion s ∧
        version.parseVersion ("V" ++ s) = version.parseVersion s) ∧
    (∀ s : String, s.data.head? = some 'v' ∨ s.data.head? = some 'V' →
      version.parseVersion ("V" ++ s) = (0, 0, 0)) ∧
    (∀ s : String, s.data.head? = some 'v' → version.parseVersion ("v" ++ s) = (0, 0, 0)) ∧
    (∀ t : String, t.data.head? ≠ some 'v' → t.data.head? ≠ some 'V' →
      version.parseVersion ("vV" ++ t) = version.parseVersion t) ∧
    (∀ t : String, t.data.head? = some 'v' ∨ t.data.head? = some 'V' →
      version.parseVersion ("vV" ++ t) = (0, 0, 0)) ∧
    version.parseVersion "vv1.2.3" = (0, 0, 0) ∧
    version.parseVersion "Vv1.2.3" = (0, 0, 0) := by
  refine ⟨?_, ?_, ?_, ?_, ?_, by decide, by decide⟩
  · intro s hv hV
    constructor
    · apply version.parseVersion_congr
      rw [version.TrimPrefix_v_cons, version.TrimPrefix_none s hv hV,
        version.TrimPrefix_of_head s "V" 'V' rfl hV]
    · apply version.parseVersion_congr
      rw [version.TrimPrefix_v_of_V, version.TrimPrefix_V_cons, version.TrimPrefix_none s hv hV]
  · intro s hs
    rcases hs with h | h
    · apply version.parseVersion_of_letter _ 'v' (by decide)
      rw [version.TrimPrefix_v_of_V, version.TrimPrefix_V_cons, h]
    · apply version.parseVersion_of_letter _ 'V' (by decide)
      rw [version.TrimPrefix_v_of_V, version.TrimPrefix_V_cons, h]
  · intro s h
    apply version.parseVersion_of_letter _ 'v' (by decide)
    rw [version.TrimPrefix_v_cons,
      version.TrimPrefix_of_head s "V" 'V' rfl (by rw [h]; decide), h]
  · intro t hv hV
    apply version.parseVersion_congr
    have hsplit : "vV" ++ t = "v" ++ ("V" ++ t) := by
      rw [← String.append_assoc]; rfl
    rw [hsplit, version.TrimPrefix_v_cons, version.TrimPrefix_V_cons,
      version.TrimPrefix_none t hv hV]
  · intro t ht
    have hsplit : "vV" ++ t = "v" ++ ("V" ++ t) := by
      rw [← String.append_assoc]; rfl
    rcases ht with h | h
    · apply version.parseVersion_of_letter _ 'v' (by decide)
      rw [hsplit, version.TrimPrefix_v_cons, version.TrimPrefix_V_cons, h]
    · apply version.parseVersion_of_letter _ 'V' (by decide)
      rw [hsplit, version.TrimPrefix_v_cons, version.TrimPrefix_V_cons, h]

/-- Instance of the amended C9 at `s = "1.2.3"`: `v1.2.3` and `V1.2.3` parse as `1.2.3`. -/
theorem parseVersion_leading_v_witness :
    (version.parseVersion ("v" ++ "1.2.3") = version.parseVersion "1.2.3" ∧
      version.parseVersion ("V" ++ "1.2.3") = version.parseVersion "1.2.3") ∧
    version.parseVersion "1.2.3" = (1, 2, 3) :=
  ⟨parseVersion_leading_v.1 "1.2.3" (by decide) (by decide), by decide⟩

/-! ## The release decoder's repo label -/

namespace strings

theorem containsChars_iff (sub s : List Char) : containsChars sub s = true ↔ sub <:+: s := by
  induction s with
  | nil => simp [containsChars, List.isEmpty_iff]
  | cons c cs ih =>
    simp only [containsChars, Bool.or_eq_true, ih, List.isPrefixOf_iff_prefix,
      List.infix_cons_iff]

theorem Contains_iff (s sub : String) : Contains s sub = true ↔ sub.data <:+: s.data :=
  containsChars_iff sub.data s.data

theorem splitChars_length (sep : Char) (s cur : List Char) :
    (splitChars sep s cur).length = s.count sep + 1 := by
  induction s generalizing cur with
  | nil => simp [splitChars]
  | cons c cs ih =>
    unfold splitChars
    by_cases h : c = sep
    · simp [h, ih]
    · simp [h, ih, List.count_cons]

theorem SplitSlash_length (s : String) : (SplitSlash s).length = s.data.count '/' + 1 :=
  splitChars_length '/' s.data []

end strings

namespace helm

theorem extractRepoFromSources_eq_find (sources : List String) :
    extractRepoFromSources sources =
      match sources.find? (fun s =>
          decide ("github.com".data <:+: s.data ∧ 4 ≤ (strings.SplitSlash s).length)) with
      | some s => (strings.SplitSlash s).getD 3 "unknown"
      | none => "unknown" := by
  induction sources with
  | nil => rfl
  | cons s rest ih =>
    unfold extractRepoFromSources
    by_cases hc : strings.Contains s "github.com" = true
    · have hi : "github.com".data <:+: s.data := (strings.Contains_iff _ _).1 hc
      by_cases hl : 3 < (strings.SplitSlash s).length
      · have hl4 : 4 ≤ (strings.SplitSlash s).length := hl
        simp only [hc, if_true, hl, dite_true, List.find?_cons, hi, hl4, and_self, decide_True]
        simp [List.getD, List.getElem?_eq_getElem hl]
      · have hl4 : ¬ 4 ≤ (strings.SplitSlash s).length := hl
        simp only [hc, if_true, hl, dite_false, List.find?_cons, hl4, and_false, decide_False]
        exact ih
    · have hi : ¬ "github.com".data <:+: s.data := fun h => hc ((strings.Contains_iff _ _).2 h)
      simp only [hc, if_false, List.find?_cons, hi, false_and, decide_False]
      exact ih

theorem ExtractReleaseInfo_present (rel : StoredRelease) (chart : ChartData) (md : Metadata)
    (info : Info) (hchart : rel.Chart = some chart) (hmd : chart.Metadata = some md)
    (hinfo : rel.Info = some info) :
    ExtractReleaseInfo rel =
      some
        { Name := rel.Name
          Namespace := rel.Namespace
          ChartName := (repoAndName md).2
          ChartRepo := (repoAndName md).1
          Version := md.Version
          Status := info.Status
          Revision := rel.Version
          Sources := md.Sources } := by
  simp only [ExtractReleaseInfo, hchart, hmd, hinfo]

theorem repoAndName_no_split (md : Metadata) (hname : md.Name ≠ "")
    (hslash : md.Name.data.count '/' ≠ 1) (hsrc : md.Sources ≠ []) :
    repoAndName md = (extractRepoFromSources md.Sources, md.Name) := by
  unfold repoAndName
  rw [if_pos hname]
  have hlen : (strings.SplitSlash md.Name).length ≠ 2 := by
    rw [strings.SplitSlash_length]; omega
  have hpos : md.Sources.length > 0 := List.length_pos.2 hsrc
  split
  · rename_i repo name heq
    rw [heq] at hlen
    exact absurd rfl hlen
  · rw [if_pos hpos]

end helm

namespace strings

theorem splitChars_infix (sep : Char) (s cur : List Char) (seg : String)
    (h : seg ∈ splitChars sep s cur) : seg.data <:+: cur.reverse ++ s := by
  induction s generalizing cur with
  | nil =>
    simp only [splitChars, List.mem_singleton] at h
    rw [h]
    simp
  | cons c cs ih =>
    unfold splitChars at h
    by_cases hc : c = sep
    · rw [if_pos hc] at h
      rcases List.mem_cons.1 h with h1 | h1
      · rw [h1]
        exact (List.prefix_append _ _).isInfix
      · have h2 := ih [] h1
        simp only [List.reverse_nil, List.nil_append] at h2
        exact h2.trans ((List.suffix_cons c cs).isInfix.trans
          (List.suffix_append _ _).isInfix)
    · rw [if_neg hc] at h
      have h2 := ih (c :: cur) h
      simpa using h2

theorem SplitSlash_infix (s seg : String) (h : seg ∈ SplitSlash s) : seg.data <:+: s.data := by
  have := splitChars_infix '/' s.data [] seg h
  simpa using this

end strings

namespace helm

theorem githubOwner_of_form (s scheme owner : String) (rest : List String)
    (h : strings.SplitSlash s = scheme :: "" :: "github.com" :: owner :: rest) :
    githubOwner s = some owner := by
  simp [githubOwner, h]

theorem githubOwner_contains (s owner : String) (h : githubOwner s = some owner) :
    "github.com".data <:+: s.data ∧ 4 ≤ (strings.SplitSlash s).length ∧
      (strings.SplitSlash s).getD 3 "unknown" = owner := by
  unfold githubOwner at h
  split at h
  · rename_i scheme slashes host o rest hsplit
    split at h
    · rename_i hcond
      simp only [Option.some.injEq] at h
      refine ⟨?_, by rw [hsplit]; simp, by rw [hsplit, ← h]; rfl⟩
      have hmem : host ∈ strings.SplitSlash s := by rw [hsplit]; simp
      have := strings.SplitSlash_infix s host hmem
      rw [hcond.2] at this
      exact this
    · exact absurd h (by simp)
  · exact absurd h (by simp)

/-- On sources whose `github.com` URLs all carry a scheme and have `github.com` as host,
`extractRepoFromSources` answers with the owner of the first source that has one. -/
theorem extractRepoFromSources_owner (sources : List String)
    (hform : ∀ s, s ∈ sources → "github.com".data <:+: s.data →
      ∃ scheme rest, strings.SplitSlash s = scheme :: "" :: "github.com" :: rest) :
    extractRepoFromSources sources = (sources.findSome? githubOwner).getD "unknown" := by
  rw [extractRepoFromSources_eq_find]
  induction sources with
  | nil => rfl
  | cons s rest ih =>
    have ih1 := ih (fun x hx => hform x (List.mem_cons_of_mem s hx))
    rw [List.find?_cons, List.findSome?_cons]
    by_cases hp : "github.com".data <:+: s.data ∧ 4 ≤ (strings.SplitSlash s).length
    · obtain ⟨scheme, tl, hsplit⟩ := hform s (List.mem_cons_self s rest) hp.1
      cases tl with
      | nil =>
        have hlen := hp.2
        rw [hsplit] at hlen
        simp at hlen
      | cons owner tl2 =>
        have hdec : decide ("github.com".data <:+: s.data ∧
            4 ≤ (strings.SplitSlash s).length) = true := decide_eq_true hp
        rw [githubOwner_of_form s scheme owner tl2 hsplit, hdec]
        simp only [Option.getD_some, hsplit]
        rfl
    · have hnone : githubOwner s = none := by
        cases hg : githubOwner s with
        | none => rfl
        | some owner =>
          obtain ⟨h1, h2, _⟩ := githubOwner_contains s owner hg
          exact absurd ⟨h1, h2⟩ hp
      have hdec : decide ("github.com".data <:+: s.data ∧
          4 ≤ (strings.SplitSlash s).length) = false := decide_eq_false hp
      rw [hnone, hdec]
      exact ih1

end helm

/-- C7, as stated, fails in two ways that the code guards on purpose. With an empty chart
identifier the sources are not read and the repo is `"unknown"`, not `bitnami`. And a
`github.com` source with too few segments does not end the search: after
`https://github.com` the next source is read and gives `bitnami`, not `"unknown"`. -/
theorem ExtractReleaseInfo_sources_counterexample :
    (helm.ExtractReleaseInfo
        ⟨"r", some ⟨"deployed"⟩,
          some ⟨some ⟨"", "1.0.0", ["https://github.com/bitnami/charts"]⟩⟩, 1, "ns"⟩).map
      (fun r => r.ChartRepo) = some "unknown" ∧
    (helm.ExtractReleaseInfo
        ⟨"r", some ⟨"deployed"⟩,
          some ⟨some ⟨"app", "1.0.0", ["https://github.com", "https://github.com/bitnami/charts"]⟩⟩,
          1, "ns"⟩).map
      (fun r => r.ChartRepo) = some "bitnami" := by
  decide

/-- C7, amended: for a decoded release that carries chart, metadata and info, whose chart
identifier is not empty and does not contain exactly one `/`, whose metadata declares at
least one source, and whose sources that contain `github.com` all have the form
`scheme://github.com` followed by nothing or by `/<owner>/...` (split on `/`: a first
segment, an empty segment, `github.com`, and what follows), `ExtractReleaseInfo` returns a
release whose `ChartName` is the identifier and whose `ChartRepo` is the owner of the
first source that has an owner, later sources being read when an earlier one has none, or
`"unknown"` when no source has an owner. With an empty identifier the repo is `"unknown"`
whatever the sources. Nothing is said of a `github.com` source of another form, such as
one without scheme. -/
theorem ExtractReleaseInfo_sources_repo :
    (∀ (rel : helm.StoredRelease) (chart : helm.ChartData) (md : helm.Metadata)
      (info : helm.Info),
      rel.Chart = some chart → chart.Metadata = some md → rel.Info = some info →
      md.Name ≠ "" → md.Name.data.count '/' ≠ 1 → md.Sources ≠ [] →
      (∀ s, s ∈ md.Sources → "github.com".data <:+: s.data →
        ∃ scheme rest, strings.SplitSlash s = scheme :: "" :: "github.com" :: rest) →
      ∃ r, helm.ExtractReleaseInfo rel = some r ∧ r.ChartName = md.Name ∧
        r.ChartRepo = (md.Sources.findSome? helm.githubOwner).getD "unknown") ∧
    (∀ (rel : helm.StoredRelease) (chart : helm.ChartData) (md : helm.Metadata)
      (info : helm.Info),
      rel.Chart = some chart → chart.Metadata = some md → rel.Info = some info →
      md.Name = "" →
      ∃ r, helm.ExtractReleaseInfo rel = some r ∧ r.ChartName = "" ∧ r.ChartRepo = "unknown") := by
  constructor
  · intro rel chart md info hchart hmd hinfo hname hslash hsrc hform
    refine ⟨_, helm.ExtractReleaseInfo_present rel chart md info hchart hmd hinfo, ?_, ?_⟩
    · simp only [helm.repoAndName_no_split md hname hslash hsrc]
    · simp only [helm.repoAndName_no_split md hname hslash hsrc]
      exact helm.extractRepoFromSources_owner md.Sources hform
  · intro rel chart md info hchart hmd hinfo hname
    refine ⟨_, helm.ExtractReleaseInfo_present rel chart md info hchart hmd hinfo, ?_, ?_⟩
    · simp [helm.repoAndName, hname]
    · simp [helm.repoAndName, hname]

/-- Instance of the amended C7: chart `charts`, whose sources are a home page,
`https://github.com` and `https://github.com/bitnami/charts`, gets the repo label
`bitnami`. -/
theorem ExtractReleaseInfo_sources_repo_witness :
    ∃ r, helm.ExtractReleaseInfo
        ⟨"r", some ⟨"deployed"⟩,
          some ⟨some ⟨"charts", "1.0.0",
            ["https://bitnami.com", "https://github.com", "https://github.com/bitnami/charts"]⟩⟩,
          1, "ns"⟩ = some r ∧
      r.ChartName = "charts" ∧ r.ChartRepo = "bitnami" := by
  obtain ⟨r, hr, hname, hrepo⟩ :=
    ExtractReleaseInfo_sources_repo.1
      ⟨"r", some ⟨"deployed"⟩,
        some ⟨some ⟨"charts", "1.0.0",
          ["https://bitnami.com", "https://github.com", "https://github.com/bitnami/charts"]⟩⟩,
        1, "ns"⟩
      ⟨some ⟨"charts", "1.0.0",
        ["https://bitnami.com", "https://github.com", "https://github.com/bitnami/charts"]⟩⟩
      ⟨"charts", "1.0.0",
        ["https://bitnami.com", "https://github.com", "https://github.com/bitnami/charts"]⟩
      ⟨"deployed"⟩
      rfl rfl rfl (by decide) (by decide) (by decide)
      (by
        intro s hs hin
        simp only [List.mem_cons, List.mem_singleton, List.not_mem_nil, or_false] at hs
        rcases hs with h | h | h
        · rw [h] at hin
          exact absurd ((strings.Contains_iff _ _).2 hin) (by decide)
        · exact ⟨"https:", [], by rw [h]; decide⟩
        · exact ⟨"https:", ["bitnami", "charts"], by rw [h]; decide⟩)
  refine ⟨r, hr, hname, ?_⟩
  rw [hrepo]
  decide

/-- The index-3 rule on a source without scheme: the comment in the code gives
`github.com/bitnami/charts` as the URL read and `bitnami` as the result, which would make
`org` the owner of `github.com/org/app`; the code passes both over, having three segments
where it asks for four, and answers `"unknown"`, and on `github.com/a/b/c` it answers
`c`. -/
theorem extractRepoFromSources_schemeless :
    helm.extractRepoFromSources ["github.com/bitnami/charts"] = "unknown" ∧
    helm.extractRepoFromSources ["github.com/org/app"] = "unknown" ∧
    helm.extractRepoFromSources ["github.com/a/b/c"] = "c" := by
  decide

/-! ## The release deduplication -/

namespace rancher

theorem seenGet_seenSet (seen : SeenReleases) (k : String) (v : helm.Release) (k2 : String) :
    seenGet (seenSet seen k v) k2 = if k = k2 then some v else seenGet seen k2 := by
  induction seen with
  | nil => simp [seenSet, seenGet]
  | cons b rest ih =>
    obtain ⟨kb, vb⟩ := b
    unfold seenSet
    by_cases h : kb = k
    · subst h
      by_cases h2 : kb = k2
      · simp [seenGet, h2]
      · simp [seenGet, h2]
    · by_cases h2 : kb = k2
      · subst h2
        simp [seenGet, h, Ne.symm h]
      · simp only [h, if_false, seenGet, h2, ih]

theorem seenGet_none_iff (seen : SeenReleases) (k : String) :
    seenGet seen k = none ↔ k ∉ seen.map Prod.fst := by
  induction seen with
  | nil => simp [seenGet]
  | cons b rest ih =>
    obtain ⟨kb, vb⟩ := b
    by_cases h : kb = k
    · simp [seenGet, h]
    · simp [seenGet, h, ih, Ne.symm h]

theorem seenSet_keys (seen : SeenReleases) (k : String) (v : helm.Release) :
    (seenSet seen k v).map Prod.fst =
      if k ∈ seen.map Prod.fst then seen.map Prod.fst else seen.map Prod.fst ++ [k] := by
  induction seen with
  | nil => simp [seenSet]
  | cons b rest ih =>
    obtain ⟨kb, vb⟩ := b
    unfold seenSet
    by_cases h : kb = k
    · simp [h]
    · simp only [h, if_false, List.map_cons, ih, List.mem_cons, Ne.symm h, false_or]
      split_ifs <;> simp

theorem seenLoop_append (seen : SeenReleases) (l1 l2 : List helm.StoredRelease) :
    seenLoop seen (l1 ++ l2) = (seenLoop seen l1).bind (fun s => seenLoop s l2) := by
  induction l1 generalizing seen with
  | nil => simp [seenLoop]
  | cons r rest ih =>
    simp only [List.cons_append, seenLoop]
    cases seenStep seen r with
    | none => simp
    | some s1 => simpa using ih s1

theorem seenLoop_snoc (seen : SeenReleases) (done : List helm.StoredRelease)
    (r : helm.StoredRelease) :
    seenLoop seen (done ++ [r]) = (seenLoop seen done).bind (fun s => seenStep s r) := by
  rw [seenLoop_append]
  congr 1
  funext s
  simp only [seenLoop]
  cases seenStep s r <;> rfl

theorem seenStep_new (seen : SeenReleases) (r : helm.StoredRelease) (sr : helm.Release)
    (hsr : helm.ExtractReleaseInfo r = some sr) (hget : seenGet seen (releaseKey r) = none) :
    seenStep seen r = some (seenSet seen (releaseKey r) sr) := by
  simp [seenStep, hget, hsr]

theorem seenStep_higher (seen : SeenReleases) (r : helm.StoredRelease) (sr existingRel : helm.Release)
    (hsr : helm.ExtractReleaseInfo r = some sr)
    (hget : seenGet seen (releaseKey r) = some existingRel)
    (hgt : r.Version > existingRel.Revision) :
    seenStep seen r = some (seenSet seen (releaseKey r) sr) := by
  simp [seenStep, hget, hsr, hgt]

theorem seenStep_keep (seen : SeenReleases) (r : helm.StoredRelease) (existingRel : helm.Release)
    (hget : seenGet seen (releaseKey r) = some existingRel)
    (hgt : ¬ r.Version > existingRel.Revision) :
    seenStep seen r = some seen := by
  simp [seenStep, hget, hgt]

theorem ExtractReleaseInfo_revision (rel : helm.StoredRelease) (s : helm.Release)
    (h : helm.ExtractReleaseInfo rel = some s) : s.Revision = rel.Version := by
  unfold helm.ExtractReleaseInfo at h
  split at h
  · exact absurd h (by simp)
  · split at h
    · exact absurd h (by simp)
    · split at h
      · exact absurd h (by simp)
      · simp only [Option.some.injEq] at h
        rw [← h]

/-- The state of the deduplication after the records `done`: the keys of the map are
distinct and are the keys met so far, and the release bound to a key is extracted from the
record `r0` of that key such that the records of the key met before `r0` have a strictly
lower revision and those met after it have at most its revision. -/
theorem seenLoop_invariant (recs : List helm.StoredRelease)
    (hwf : ∀ r, r ∈ recs → ∃ s, helm.ExtractReleaseInfo r = some s) :
    ∃ seen, seenLoop [] recs = some seen ∧
      (seen.map Prod.fst).Nodup ∧
      (∀ k, k ∈ seen.map Prod.fst ↔ ∃ r, r ∈ recs ∧ releaseKey r = k) ∧
      (∀ k s, seenGet seen k = some s →
        ∃ pre r0 post, recs = pre ++ r0 :: post ∧ releaseKey r0 = k ∧
          helm.ExtractReleaseInfo r0 = some s ∧
          (∀ r, r ∈ pre → releaseKey r = k → r.Version < r0.Version) ∧
          (∀ r, r ∈ post → releaseKey r = k → r.Version ≤ r0.Version)) := by
  induction recs using List.reverseRecOn with
  | nil =>
    refine ⟨[], rfl, by simp, by simp, ?_⟩
    intro k s h
    simp [seenGet] at h
  | append_singleton done r ih =>
    obtain ⟨seen, hloop, hnodup, hkeys, hbest⟩ :=
      ih (fun x hx => hwf x (List.mem_append_left _ hx))
    obtain ⟨sr, hsr⟩ := hwf r (List.mem_append_right _ (List.mem_singleton_self r))
    have hrev : sr.Revision = r.Version := ExtractReleaseInfo_revision r sr hsr
    rw [seenLoop_snoc, hloop, Option.some_bind]
    -- the record replaces the binding of its key
    have hreplace : (seenSet seen (releaseKey r) sr).map Prod.fst |>.Nodup := by
      rw [seenSet_keys]
      split_ifs with hmem
      · exact hnodup
      · exact List.Nodup.append hnodup (List.nodup_singleton _) (by simpa using hmem)
    have hkeys_set : ∀ k, k ∈ (seenSet seen (releaseKey r) sr).map Prod.fst ↔
        ∃ x, x ∈ done ++ [r] ∧ releaseKey x = k := by
      intro k
      rw [seenSet_keys]
      constructor
      · intro hk
        split_ifs at hk with hmem
        · obtain ⟨x, hx, hxk⟩ := (hkeys k).1 hk
          exact ⟨x, List.mem_append_left _ hx, hxk⟩
        · rcases List.mem_append.1 hk with h | h
          · obtain ⟨x, hx, hxk⟩ := (hkeys k).1 h
            exact ⟨x, List.mem_append_left _ hx, hxk⟩
          · rw [List.mem_singleton] at h
            exact ⟨r, by simp, h.symm⟩
      · rintro ⟨x, hx, hxk⟩
        rcases List.mem_append.1 hx with h | h
        · have hk : k ∈ seen.map Prod.fst := (hkeys k).2 ⟨x, h, hxk⟩
          split_ifs
          · exact hk
          · exact List.mem_append_left _ hk
        · rw [List.mem_singleton] at h
          subst h
          split_ifs with hmem
          · rw [← hxk]; exact hmem
          · rw [← hxk]; simp
    have hkeep : ∀ k s, releaseKey r ≠ k → seenGet seen k = some s →
        ∃ pre r0 post, done ++ [r] = pre ++ r0 :: post ∧ releaseKey r0 = k ∧
          helm.ExtractReleaseInfo r0 = some s ∧
          (∀ x, x ∈ pre → releaseKey x = k → x.Version < r0.Version) ∧
          (∀ x, x ∈ post → releaseKey x = k → x.Version ≤ r0.Version) := by
      intro k s hne hs
      obtain ⟨pre, r0, post, hdone, hk0, he0, hpre, hpost⟩ := hbest k s hs
      refine ⟨pre, r0, post ++ [r], by rw [hdone]; simp, hk0, he0, hpre, ?_⟩
      intro x hx hxk
      rcases List.mem_append.1 hx with h | h
      · exact hpost x h hxk
      · rw [List.mem_singleton] at h
        subst h
        exact absurd hxk hne
    -- the record comes last for its key, above all the others
    have hnew : (∀ x, x ∈ done → releaseKey x = releaseKey r → x.Version < r.Version) →
        ∀ k s, seenGet (seenSet seen (releaseKey r) sr) k = some s →
        ∃ pre r0 post, done ++ [r] = pre ++ r0 :: post ∧ releaseKey r0 = k ∧
          helm.ExtractReleaseInfo r0 = some s ∧
          (∀ x, x ∈ pre → releaseKey x = k → x.Version < r0.Version) ∧
          (∀ x, x ∈ post → releaseKey x = k → x.Version ≤ r0.Version) := by
      intro hlow k s hs
      rw [seenGet_seenSet] at hs
      by_cases hk : releaseKey r = k
      · rw [if_pos hk] at hs
        simp only [Option.some.injEq] at hs
        subst hs
        refine ⟨done, r, [], rfl, hk, hsr, ?_, by simp⟩
        intro x hx hxk
        exact hlow x hx (hxk.trans hk.symm)
      · rw [if_neg hk] at hs
        exact hkeep k s hk hs
    cases hget : seenGet seen (releaseKey r) with
    | none =>
      rw [seenStep_new seen r sr hsr hget]
      have hfresh : ∀ x, x ∈ done → releaseKey x = releaseKey r → x.Version < r.Version := by
        intro x hx hxk
        have : releaseKey r ∈ seen.map Prod.fst := (hkeys _).2 ⟨x, hx, hxk⟩
        exact absurd this ((seenGet_none_iff _ _).1 hget)
      exact ⟨_, rfl, hreplace, hkeys_set, hnew hfresh⟩
    | some existingRel =>
      obtain ⟨pre, r0, post, hdone, hk0, he0, hpre, hpost⟩ := hbest _ _ hget
      have hrev0 : existingRel.Revision = r0.Version := ExtractReleaseInfo_revision r0 _ he0
      by_cases hgt : r.Version > existingRel.Revision
      · rw [seenStep_higher seen r sr existingRel hsr hget hgt]
        have hlow : ∀ x, x ∈ done → releaseKey x = releaseKey r → x.Version < r.Version := by
          intro x hx hxk
          rw [hdone] at hx
          rw [hrev0] at hgt
          rcases List.mem_append.1 hx with h | h
          · exact lt_trans (hpre x h hxk) hgt
          · rcases List.mem_cons.1 h with h | h
            · rw [h]; exact hgt
            · exact lt_of_le_of_lt (hpost x h hxk) hgt
        exact ⟨_, rfl, hreplace, hkeys_set, hnew hlow⟩
      · rw [seenStep_keep seen r existingRel hget hgt]
        refine ⟨seen, rfl, hnodup, ?_, ?_⟩
        · intro k
          constructor
          · intro hk
            obtain ⟨x, hx, hxk⟩ := (hkeys k).1 hk
            exact ⟨x, List.mem_append_left _ hx, hxk⟩
          · rintro ⟨x, hx, hxk⟩
            rcases List.mem_append.1 hx with h | h
            · exact (hkeys k).2 ⟨x, h, hxk⟩
            · rw [List.mem_singleton] at h
              subst h
              rw [← hxk]
              exact (hkeys _).2 ⟨r0, by rw [hdone]; simp, hk0⟩
        · intro k s hs
          by_cases hk : releaseKey r = k
          · subst hk
            rw [hget] at hs
            simp only [Option.some.injEq] at hs
            subst hs
            refine ⟨pre, r0, post ++ [r], by rw [hdone]; simp, hk0, he0, hpre, ?_⟩
            intro x hx hxk
            rcases List.mem_append.1 hx with h | h
            · exact hpost x h hxk
            · rw [List.mem_singleton] at h
              subst h
              rw [← hrev0]
              exact not_lt.1 hgt
          · exact hkeep k s hk hs

end rancher

namespace rancher

theorem seenGet_of_mem_keys (seen : SeenReleases) (k : String) (h : k ∈ seen.map Prod.fst) :
    ∃ s, seenGet seen k = some s ∧ s ∈ seen.map Prod.snd := by
  induction seen with
  | nil => simp at h
  | cons b rest ih =>
    obtain ⟨kb, vb⟩ := b
    by_cases hk : kb = k
    · exact ⟨vb, by simp [seenGet, hk], by simp⟩
    · have hrest : k ∈ rest.map Prod.fst := by
        simpa [Ne.symm hk] using h
      obtain ⟨s, hs, hmem⟩ := ih hrest
      exact ⟨s, by simp [seenGet, hk, hs], by simp only [List.map_cons]; exact List.mem_cons_of_mem _ hmem⟩

/-- On records that all carry chart, metadata and info, `getHelmReleases` returns, and
what it returns is the deduplication by key: one release per key met, and for every record
the release of its key is extracted from the first record of that key that has the highest
revision of the key. -/
theorem getHelmReleases_of_complete (recs : List helm.StoredRelease)
    (hwf : ∀ r, r ∈ recs → (helm.ExtractReleaseInfo r).isSome = true) :
    ∃ out, getHelmReleases recs = some out ∧
      out.length = ((recs.map releaseKey).dedup).length ∧
      ∀ r, r ∈ recs →
        ∃ pre r0 post s, recs = pre ++ r0 :: post ∧ releaseKey r0 = releaseKey r ∧
          helm.ExtractReleaseInfo r0 = some s ∧ s ∈ out ∧ s.Revision = r0.Version ∧
          (∀ x, x ∈ pre → releaseKey x = releaseKey r → x.Version < r0.Version) ∧
          (∀ x, x ∈ post → releaseKey x = releaseKey r → x.Version ≤ r0.Version) := by
  obtain ⟨seen, hloop, hnodup, hkeys, hbest⟩ :=
    seenLoop_invariant recs (fun r hr => Option.isSome_iff_exists.1 (hwf r hr))
  refine ⟨seen.map Prod.snd, by simp [getHelmReleases, hloop], ?_, ?_⟩
  · have hperm : (seen.map Prod.fst).Perm ((recs.map releaseKey).dedup) := by
      rw [List.perm_ext_iff_of_nodup hnodup (List.nodup_dedup _)]
      intro k
      rw [hkeys k, List.mem_dedup, List.mem_map]
    have := hperm.length_eq
    simpa using this
  · intro r hr
    have hk : releaseKey r ∈ seen.map Prod.fst := (hkeys _).2 ⟨r, hr, rfl⟩
    obtain ⟨s, hs, hmem⟩ := seenGet_of_mem_keys seen _ hk
    obtain ⟨pre, r0, post, hsplit, hk0, he0, hpre, hpost⟩ := hbest _ s hs
    exact ⟨pre, r0, post, s, hsplit, hk0, he0, hmem, ExtractReleaseInfo_revision r0 s he0,
      hpre, hpost⟩

theorem slash_split_unique (a b c d : List Char) (ha : '/' ∉ a) (hc : '/' ∉ c)
    (h : a ++ '/' :: b = c ++ '/' :: d) : a = c ∧ b = d := by
  induction a generalizing c with
  | nil =>
    cases c with
    | nil => simpa using h
    | cons y ys =>
      simp only [List.nil_append, List.cons_append, List.cons.injEq] at h
      exact absurd (by rw [← h.1]; simp) hc
  | cons x xs ih =>
    cases c with
    | nil =>
      simp only [List.nil_append, List.cons_append, List.cons.injEq] at h
      exact absurd (by rw [h.1]; simp) ha
    | cons y ys =>
      simp only [List.cons_append, List.cons.injEq] at h
      have hxs : '/' ∉ xs := fun hm => ha (List.mem_cons_of_mem _ hm)
      have hys : '/' ∉ ys := fun hm => hc (List.mem_cons_of_mem _ hm)
      obtain ⟨h1, h2⟩ := ih ys hxs hys h.2
      exact ⟨by rw [h.1, h1], h2⟩

/-- Records whose namespaces contain no `/` have the same key only when they have the same
namespace and the same name. -/
theorem releaseKey_injective (r1 r2 : helm.StoredRelease)
    (h1 : '/' ∉ r1.Namespace.data) (h2 : '/' ∉ r2.Namespace.data)
    (h : releaseKey r1 = releaseKey r2) :
    r1.Namespace = r2.Namespace ∧ r1.Name = r2.Name := by
  have hd : r1.Namespace.data ++ '/' :: r1.Name.data = r2.Namespace.data ++ '/' :: r2.Name.data := by
    have := congrArg String.data h
    simpa [releaseKey, String.data_append] using this
  obtain ⟨ha, hb⟩ := slash_split_unique _ _ _ _ h1 h2 hd
  exact ⟨String.ext ha, String.ext hb⟩

end rancher

/-- C5 at a failing input: a decoded record without chart (what `DecodeRelease` returns
for a document that gives only name, namespace and version) is new for its key, or has the
higher revision, so `getHelmReleases` hands it to `ExtractReleaseInfo`, which fails on the
nil chart: the loop is aborted and no release survives, whatever the revisions. -/
theorem getHelmReleases_max_revision_failing :
    rancher.getHelmReleases [⟨"app", none, none, 5, "ns"⟩] = none ∧
    rancher.getHelmReleases
      [ ⟨"app", some ⟨"deployed"⟩, some ⟨some ⟨"app", "1.0.0", []⟩⟩, 3, "ns"⟩,
        ⟨"app", some ⟨"deployed"⟩, none, 5, "ns"⟩ ] = none := by
  decide

namespace rancher

theorem ExtractReleaseInfo_identity (rel : helm.StoredRelease) (s : helm.Release)
    (h : helm.ExtractReleaseInfo rel = some s) :
    s.Namespace = rel.Namespace ∧ s.Name = rel.Name := by
  unfold helm.ExtractReleaseInfo at h
  split at h
  · exact absurd h (by simp)
  · split at h
    · exact absurd h (by simp)
    · split at h
      · exact absurd h (by simp)
      · simp only [Option.some.injEq] at h
        rw [← h]
        exact ⟨rfl, rfl⟩

theorem seenGet_of_mem (seen : SeenReleases) (hnodup : (seen.map Prod.fst).Nodup)
    (b : String × helm.Release) (hb : b ∈ seen) : seenGet seen b.1 = some b.2 := by
  induction seen with
  | nil => simp at hb
  | cons c rest ih =>
    obtain ⟨kc, vc⟩ := c
    simp only [List.map_cons, List.nodup_cons] at hnodup
    rcases List.mem_cons.1 hb with h | h
    · subst h
      simp [seenGet]
    · have hne : kc ≠ b.1 := by
        intro heq
        apply hnodup.1
        rw [heq]
        exact List.mem_map_of_mem Prod.fst h
      simp only [seenGet, hne, if_false]
      exact ih hnodup.2 h

end rancher

/-- C6, as stated, fails: the records of namespace `a/b`, name `c` and of namespace `a`,
name `b/c` have different (namespace, name) pairs and the same key `a/b/c`; one release
survives for the two, the one of higher revision. -/
theorem getHelmReleases_distinct_pairs_counterexample :
    rancher.releaseKey ⟨"c", some ⟨"deployed"⟩, some ⟨some ⟨"x", "1.0.0", []⟩⟩, 1, "a/b"⟩ =
      rancher.releaseKey ⟨"b/c", some ⟨"deployed"⟩, some ⟨some ⟨"y", "2.0.0", []⟩⟩, 2, "a"⟩ ∧
    rancher.getHelmReleases
      [ ⟨"c", some ⟨"deployed"⟩, some ⟨some ⟨"x", "1.0.0", []⟩⟩, 1, "a/b"⟩,
        ⟨"b/c", some ⟨"deployed"⟩, some ⟨some ⟨"y", "2.0.0", []⟩⟩, 2, "a"⟩ ] =
      some [⟨"b/c", "a", "y", "unknown", "2.0.0", "deployed", 2, []⟩] := by
  decide

/-- C6, amended: for every sequence of decoded records that all carry chart, metadata and
info and whose namespaces contain no `/`, `getHelmReleases` returns exactly one release for
each distinct (namespace, name) pair of the input: the pairs of the releases returned are
pairwise distinct and are the pairs that occur among the records. -/
theorem getHelmReleases_distinct_pairs (recs : List helm.StoredRelease)
    (hwf : ∀ r, r ∈ recs → (helm.ExtractReleaseInfo r).isSome = true)
    (hns : ∀ r, r ∈ recs → '/' ∉ r.Namespace.data) :
    ∃ out, rancher.getHelmReleases recs = some out ∧
      (out.map (fun s => (s.Namespace, s.Name))).Nodup ∧
      ∀ pair, pair ∈ out.map (fun s => (s.Namespace, s.Name)) ↔
        pair ∈ recs.map (fun r => (r.Namespace, r.Name)) := by
  obtain ⟨seen, hloop, hnodup, hkeys, hbest⟩ :=
    rancher.seenLoop_invariant recs (fun r hr => Option.isSome_iff_exists.1 (hwf r hr))
  have horigin : ∀ b, b ∈ seen → ∃ r0, r0 ∈ recs ∧ rancher.releaseKey r0 = b.1 ∧
      b.2.Namespace = r0.Namespace ∧ b.2.Name = r0.Name := by
    intro b hb
    obtain ⟨pre, r0, post, hsplit, hk0, he0, _, _⟩ :=
      hbest b.1 b.2 (rancher.seenGet_of_mem seen hnodup b hb)
    obtain ⟨h1, h2⟩ := rancher.ExtractReleaseInfo_identity r0 b.2 he0
    exact ⟨r0, by rw [hsplit]; simp, hk0, h1, h2⟩
  refine ⟨seen.map Prod.snd, by simp [rancher.getHelmReleases, hloop], ?_, ?_⟩
  · have hkey : (seen.map (fun b => (b.2.Namespace, b.2.Name))).map
        (fun p => p.1 ++ "/" ++ p.2) = seen.map Prod.fst := by
      rw [List.map_map]
      apply List.map_congr_left
      intro b hb
      obtain ⟨r0, _, hk0, h1, h2⟩ := horigin b hb
      simp only [Function.comp]
      rw [h1, h2, ← hk0]
      rfl
    rw [List.map_map]
    show (seen.map (fun b => (b.2.Namespace, b.2.Name))).Nodup
    exact List.Nodup.of_map (fun p => p.1 ++ "/" ++ p.2) (by rw [hkey]; exact hnodup)
  · intro pair
    rw [List.map_map]
    constructor
    · intro hp
      obtain ⟨b, hb, hbp⟩ := List.mem_map.1 hp
      obtain ⟨r0, hr0, _, h1, h2⟩ := horigin b hb
      refine List.mem_map.2 ⟨r0, hr0, ?_⟩
      rw [← hbp]
      simp only [Function.comp, h1, h2]
    · intro hp
      obtain ⟨r, hr, hrp⟩ := List.mem_map.1 hp
      have hk : rancher.releaseKey r ∈ seen.map Prod.fst := (hkeys _).2 ⟨r, hr, rfl⟩
      obtain ⟨b, hb, hbk⟩ := List.mem_map.1 hk
      obtain ⟨r0, hr0, hk0, h1, h2⟩ := horigin b hb
      obtain ⟨hns0, hname0⟩ :=
        rancher.releaseKey_injective r0 r (hns r0 hr0) (hns r hr) (hk0.trans hbk)
      refine List.mem_map.2 ⟨b, hb, ?_⟩
      rw [← hrp]
      simp only [Function.comp, h1, h2, hns0, hname0]

/-- Instance of the amended C6: two records of `ns/app` and one of `ns/db` leave two
releases, `ns/app` at revision 3 and `ns/db`. -/
theorem getHelmReleases_distinct_pairs_witness :
    rancher.getHelmReleases
        [ ⟨"app", some ⟨"deployed"⟩, some ⟨some ⟨"app", "1.0.0", []⟩⟩, 3, "ns"⟩,
          ⟨"db", some ⟨"deployed"⟩, some ⟨some ⟨"db", "2.0.0", []⟩⟩, 1, "ns"⟩,
          ⟨"app", some ⟨"superseded"⟩, some ⟨some ⟨"app", "0.9.0", []⟩⟩, 2, "ns"⟩ ] =
      some [ ⟨"app", "ns", "app", "unknown", "1.0.0", "deployed", 3, []⟩,
             ⟨"db", "ns", "db", "unknown", "2.0.0", "deployed", 1, []⟩ ] ∧
    ∃ out, rancher.getHelmReleases
        [ ⟨"app", some ⟨"deployed"⟩, some ⟨some ⟨"app", "1.0.0", []⟩⟩, 3, "ns"⟩,
          ⟨"db", some ⟨"deployed"⟩, some ⟨some ⟨"db", "2.0.0", []⟩⟩, 1, "ns"⟩,
          ⟨"app", some ⟨"superseded"⟩, some ⟨some ⟨"app", "0.9.0", []⟩⟩, 2, "ns"⟩ ] = some out ∧
      (out.map (fun s => (s.Namespace, s.Name))).Nodup ∧
      ∀ pair, pair ∈ out.map (fun s => (s.Namespace, s.Name)) ↔
        pair ∈
          [ ⟨"app", some ⟨"deployed"⟩, some ⟨some ⟨"app", "1.0.0", []⟩⟩, 3, "ns"⟩,
            ⟨"db", some ⟨"deployed"⟩, some ⟨some ⟨"db", "2.0.0", []⟩⟩, 1, "ns"⟩,
            (⟨"app", some ⟨"superseded"⟩, some ⟨some ⟨"app", "0.9.0", []⟩⟩, 2, "ns"⟩ :
              helm.StoredRelease) ].map
            (fun r => (r.Namespace, r.Name)) :=
  ⟨by decide, getHelmReleases_distinct_pairs _ (by decide) (by decide)⟩

/-! ## The catalog lookup for internal charts -/

namespace rancher

theorem processRelease_internal_eq (catalog : List chart.Chart) (cluster : String)
    (rel : helm.Release) (h : isInternalChart rel.ChartName = true) :
    processRelease catalog cluster rel =
      { Release :=
          { rel with
            ChartRepo :=
              if (chart.FindLatestVersionBySource rel.Sources rel.ChartName catalog).2 ≠ "unknown"
              then (chart.FindLatestVersionBySource rel.Sources rel.ChartName catalog).2
              else rel.ChartRepo }
        CurrentVersion := rel.Version
        LatestVersion := "managed"
        UpdateAvailable := false
        Cluster := cluster } := by
  unfold processRelease
  by_cases hr : (chart.FindLatestVersionBySource rel.Sources rel.ChartName catalog).2 = "unknown"
  · simp [h, hr, version.IsNewer]
  · simp [h, hr, version.IsNewer]

theorem processReleaseSkippingLookup_internal (catalog : List chart.Chart) (cluster : String)
    (rel : helm.Release) (h : isInternalChart rel.ChartName = true) :
    processReleaseSkippingLookup catalog cluster rel =
      { Release := rel
        CurrentVersion := rel.Version
        LatestVersion := "managed"
        UpdateAvailable := false
        Cluster := cluster } := by
  unfold processReleaseSkippingLookup
  simp [h, version.IsNewer]

theorem release_with_repo_eq (rel : helm.Release) (repo : String) :
    ({ rel with ChartRepo := repo } : helm.Release) = rel ↔ repo = rel.ChartRepo := by
  constructor
  · intro h
    have := congrArg helm.Release.ChartRepo h
    simpa using this
  · intro h
    rw [h]

end rancher

/-- C11, as stated, fails: for the internal chart `rke2-coredns` a catalog that offers the
chart under repo `rke2-charts` and the empty catalog give two different `HelmApp`s, with
`ChartRepo` `rke2-charts` and `unknown`; and the resolver that skips the lookup reports
`unknown` where `processReleases` reports `rke2-charts`. -/
theorem processReleases_internal_lookup_counterexample :
    (rancher.processReleases
        [⟨"coredns", "kube-system", "rke2-coredns", "unknown", "1.0.0", "deployed", 1, []⟩]
        [⟨"9.9.9", "rke2-charts", "rke2-coredns", "rke2-coredns", "", []⟩] "local").map
      (fun app => app.Release.ChartRepo) = ["rke2-charts"] ∧
    (rancher.processReleases
        [⟨"coredns", "kube-system", "rke2-coredns", "unknown", "1.0.0", "deployed", 1, []⟩]
        [] "local").map
      (fun app => app.Release.ChartRepo) = ["unknown"] ∧
    rancher.processReleases
        [⟨"coredns", "kube-system", "rke2-coredns", "unknown", "1.0.0", "deployed", 1, []⟩]
        [⟨"9.9.9", "rke2-charts", "rke2-coredns", "rke2-coredns", "", []⟩] "local" ≠
      rancher.processReleases
        [⟨"coredns", "kube-system", "rke2-coredns", "unknown", "1.0.0", "deployed", 1, []⟩]
        [] "local" ∧
    rancher.processReleasesSkippingLookup
        [⟨"coredns", "kube-system", "rke2-coredns", "unknown", "1.0.0", "deployed", 1, []⟩]
        [⟨"9.9.9", "rke2-charts", "rke2-coredns", "rke2-coredns", "", []⟩] "local" ≠
      rancher.processReleases
        [⟨"coredns", "kube-system", "rke2-coredns", "unknown", "1.0.0", "deployed", 1, []⟩]
        [⟨"9.9.9", "rke2-charts", "rke2-coredns", "rke2-coredns", "", []⟩] "local" := by
  decide

/-- C11, amended: for an internally managed chart the catalog lookup decides
`Release.ChartRepo` and nothing else. For every release whose chart name is internal and
any two catalogs, the `HelmApp`s that `processReleases` emits have the release's version as
`CurrentVersion`, `LatestVersion = "managed"`, `UpdateAvailable = false`, the cluster name,
and the release copied except for `ChartRepo`, which is the repo the lookup returns when
that is not `"unknown"` and the release's own repo otherwise; the resolver that skips the
lookup reports the release's own repo. So the two `HelmApp`s are identical when the two
lookups return the same repo, and the skipping resolver agrees with `processReleases`
exactly when the lookup returns `"unknown"` or the release's own repo. -/
theorem processReleases_internal_lookup (releases : List helm.Release)
    (c1 c2 : List chart.Chart) (cluster : String) (i : Nat) (rel : helm.Release)
    (hrel : releases[i]? = some rel)
    (hinternal : rel.ChartName ∈ rancher.internalCharts ∨
      ∃ p, p ∈ ["rke2-", "rancher-", "fleet-", "cattle-"] ∧ p.data <+: rel.ChartName.data) :
    ∃ a1 a2 a0,
      (rancher.processReleases releases c1 cluster)[i]? = some a1 ∧
      (rancher.processReleases releases c2 cluster)[i]? = some a2 ∧
      (rancher.processReleasesSkippingLookup releases c1 cluster)[i]? = some a0 ∧
      a1 =
        { Release :=
            { rel with
              ChartRepo :=
                if (chart.FindLatestVersionBySource rel.Sources rel.ChartName c1).2 ≠ "unknown"
                then (chart.FindLatestVersionBySource rel.Sources rel.ChartName c1).2
                else rel.ChartRepo }
          CurrentVersion := rel.Version
          LatestVersion := "managed"
          UpdateAvailable := false
          Cluster := cluster } ∧
      a2 =
        { Release :=
            { rel with
              ChartRepo :=
                if (chart.FindLatestVersionBySource rel.Sources rel.ChartName c2).2 ≠ "unknown"
                then (chart.FindLatestVersionBySource rel.Sources rel.ChartName c2).2
                else rel.ChartRepo }
          CurrentVersion := rel.Version
          LatestVersion := "managed"
          UpdateAvailable := false
          Cluster := cluster } ∧
      a0 =
        { Release := rel
          CurrentVersion := rel.Version
          LatestVersion := "managed"
          UpdateAvailable := false
          Cluster := cluster } ∧
      ((chart.FindLatestVersionBySource rel.Sources rel.ChartName c1).2 =
          (chart.FindLatestVersionBySource rel.Sources rel.ChartName c2).2 → a1 = a2) ∧
      (a0 = a1 ↔
        (chart.FindLatestVersionBySource rel.Sources rel.ChartName c1).2 = "unknown" ∨
        (chart.FindLatestVersionBySource rel.Sources rel.ChartName c1).2 = rel.ChartRepo) := by
  have hint : rancher.isInternalChart rel.ChartName = true :=
    (rancher.isInternalChart_iff rel.ChartName).2 hinternal
  have h1 := rancher.processRelease_internal_eq c1 cluster rel hint
  have h2 := rancher.processRelease_internal_eq c2 cluster rel hint
  have h0 := rancher.processReleaseSkippingLookup_internal c1 cluster rel hint
  refine ⟨rancher.processRelease c1 cluster rel, rancher.processRelease c2 cluster rel,
    rancher.processReleaseSkippingLookup c1 cluster rel,
    rancher.processReleases_getElem? releases c1 cluster i rel hrel,
    rancher.processReleases_getElem? releases c2 cluster i rel hrel, ?_, h1, h2, h0, ?_, ?_⟩
  · unfold rancher.processReleasesSkippingLookup
    rw [List.getElem?_map, hrel]
    rfl
  · intro heq
    rw [h1, h2, heq]
  · rw [h0, h1]
    constructor
    · intro h
      have hrelease := congrArg rancher.HelmApp.Release h
      have hrepo := (rancher.release_with_repo_eq rel _).1 hrelease.symm
      by_cases hu : (chart.FindLatestVersionBySource rel.Sources rel.ChartName c1).2 = "unknown"
      · exact Or.inl hu
      · rw [if_pos hu] at hrepo
        exact Or.inr hrepo
    · intro h
      have hrepo : (if (chart.FindLatestVersionBySource rel.Sources rel.ChartName c1).2 ≠ "unknown"
          then (chart.FindLatestVersionBySource rel.Sources rel.ChartName c1).2
          else rel.ChartRepo) = rel.ChartRepo := by
        rcases h with hu | he
        · rw [if_neg (by simp [hu])]
        · by_cases hu : (chart.FindLatestVersionBySource rel.Sources rel.ChartName c1).2 = "unknown"
          · rw [if_neg (by simp [hu])]
          · rw [if_pos hu, he]
      rw [hrepo]

/-- Instance of the amended C11: `rke2-coredns` against a catalog that offers it under
repo `rke2-charts` and against the empty catalog; the two `HelmApp`s differ in `ChartRepo`
only, and the skipping resolver gives that of the empty catalog. -/
theorem processReleases_internal_lookup_witness :
    ∃ a1 a2 a0,
      (rancher.processReleases
        [⟨"coredns", "kube-system", "rke2-coredns", "unknown", "1.0.0", "deployed", 1, []⟩]
        [⟨"9.9.9", "rke2-charts", "rke2-coredns", "rke2-coredns", "", []⟩] "local")[0]? = some a1 ∧
      (rancher.processReleases
        [⟨"coredns", "kube-system", "rke2-coredns", "unknown", "1.0.0", "deployed", 1, []⟩]
        [] "local")[0]? = some a2 ∧
      (rancher.processReleasesSkippingLookup
        [⟨"coredns", "kube-system", "rke2-coredns", "unknown", "1.0.0", "deployed", 1, []⟩]
        [⟨"9.9.9", "rke2-charts", "rke2-coredns", "rke2-coredns", "", []⟩] "local")[0]? = some a0 ∧
      a1 = ⟨⟨"coredns", "kube-system", "rke2-coredns", "rke2-charts", "1.0.0", "deployed", 1, []⟩,
        "1.0.0", "managed", false, "local"⟩ ∧
      a2 = ⟨⟨"coredns", "kube-system", "rke2-coredns", "unknown", "1.0.0", "deployed", 1, []⟩,
        "1.0.0", "managed", false, "local"⟩ ∧
      a0 = a2 := by
  obtain ⟨a1, a2, a0, h1, h2, h0, e1, e2, e0, _, _⟩ :=
    processReleases_internal_lookup
      [⟨"coredns", "kube-system", "rke2-coredns", "unknown", "1.0.0", "deployed", 1, []⟩]
      [⟨"9.9.9", "rke2-charts", "rke2-coredns", "rke2-coredns", "", []⟩] [] "local" 0
      ⟨"coredns", "kube-system", "rke2-coredns", "unknown", "1.0.0", "deployed", 1, []⟩
      rfl (Or.inl (by decide))
  refine ⟨a1, a2, a0, h1, h2, h0, ?_, ?_, ?_⟩
  · rw [e1]; decide
  · rw [e2]; decide
  · rw [e0, e2]; decide

/-! ## The totality of the release decoder's extraction -/

namespace helm

/-- `ExtractReleaseInfo` returns exactly on the records that carry chart, chart metadata
and info. -/
theorem ExtractReleaseInfo_isSome_iff (rel : StoredRelease) :
    (ExtractReleaseInfo rel).isSome = true ↔
      ∃ chart md info, rel.Chart = some chart ∧ chart.Metadata = some md ∧
        rel.Info = some info := by
  constructor
  · intro h
    unfold ExtractReleaseInfo at h
    split at h
    · simp at h
    · rename_i chart hchart
      split at h
      · simp at h
      · rename_i md hmd
        split at h
        · simp at h
        · rename_i info hinfo
          exact ⟨chart, md, info, hchart, hmd, hinfo⟩
  · rintro ⟨chart, md, info, hchart, hmd, hinfo⟩
    rw [ExtractReleaseInfo_present rel chart md info hchart hmd hinfo]
    rfl

end helm

/-- C12 at failing inputs: on the record that `DecodeRelease` returns for the document
`{}` (no chart, no info), on a record whose chart has no metadata and on a record without
info, `ExtractReleaseInfo` fails with a nil-pointer panic instead of returning a release;
and one such record aborts the loop of `getHelmReleases`, the complete record met before it
being lost with it. -/
theorem ExtractReleaseInfo_total_failing :
    helm.ExtractReleaseInfo ⟨"", none, none, 0, ""⟩ = none ∧
    helm.ExtractReleaseInfo ⟨"app", some ⟨"deployed"⟩, some ⟨none⟩, 1, "ns"⟩ = none ∧
    helm.ExtractReleaseInfo ⟨"app", none, some ⟨some ⟨"app", "1.0.0", []⟩⟩, 1, "ns"⟩ = none ∧
    rancher.getHelmReleases
      [ ⟨"db", some ⟨"deployed"⟩, some ⟨some ⟨"db", "2.0.0", []⟩⟩, 1, "ns"⟩,
        ⟨"", none, none, 0, ""⟩ ] = none := by
  decide

end RkeUpdateChecker
